import Mathlib

/-!
# Verification of the zdutil disk cache (src/zdutil/cache.py)

Shallow embedding of the content-addressed disk cache of the zdutil
repository, together with proofs about its key derivation
(`_hash_input`, `safe_json`, `serialize_df`, `_cache_path`), its codec
(`write_to_disk`, `read_from_disk`), its memoizing wrapper
(`disk_cache` / `wrapper`) and its ad-hoc accessor
(`_load_most_recent_from_cache`).

Python values that can appear as function arguments are modelled by the
inductive type `PyVal`; the filesystem is modelled as an association
list from paths to entries carrying a value, an mtime and a ctime.
`hashlib.sha256` is implemented in full (and checked against the FIPS
test vectors); `json.dumps(..., default=serialize_df)` is implemented
character-by-character with Python's default separators, which notably
do NOT sort dictionary keys.
-/

set_option maxRecDepth 40000

/-! ## SHA-256 (hashlib.sha256(...).hexdigest())

Round constants are the fractional bits of cube/square roots of the
first primes, obtained here with an integer-root binary search so that
everything evaluates inside the kernel. -/

def rootAux (f : Nat → Nat) (n : Nat) : Nat → Nat → Nat → Nat
  | 0, lo, _ => lo
  | fuel+1, lo, hi =>
    let mid := (lo + hi) / 2
    if mid = lo then lo
    else if f mid ≤ n then rootAux f n fuel mid hi else rootAux f n fuel lo mid

def iroot (f : Nat → Nat) (n : Nat) : Nat := rootAux f n 400 0 (n + 1)

def fracRootBits (f : Nat → Nat) (shift p : Nat) : Nat := iroot f (p <<< shift) % 4294967296

def sha256primes : List Nat :=
  [2, 3, 5, 7, 11, 13, 17, 19, 23, 29, 31, 37, 41, 43, 47, 53,
   59, 61, 67, 71, 73, 79, 83, 89, 97, 101, 103, 107, 109, 113, 127, 131,
   137, 139, 149, 151, 157, 163, 167, 173, 179, 181, 191, 193, 197, 199, 211, 223,
   227, 229, 233, 239, 241, 251, 257, 263, 269, 271, 277, 281, 283, 293, 307, 311]

def sha256K : List Nat := sha256primes.map (fracRootBits (fun x => x * x * x) 96)

def sha256H0 : List Nat := (sha256primes.take 8).map (fracRootBits (fun x => x * x) 64)

def rotr32 (n w : Nat) : Nat := (w >>> n) ||| ((w <<< (32 - n)) % 4294967296)

structure Hash8 where
  a : Nat
  b : Nat
  c : Nat
  d : Nat
  e : Nat
  f : Nat
  g : Nat
  h : Nat

def shaStep (k w : Nat) (s : Hash8) : Hash8 :=
  let s1 := rotr32 6 s.e ^^^ rotr32 11 s.e ^^^ rotr32 25 s.e
  let ch := (s.e &&& s.f) ^^^ ((s.e ^^^ 4294967295) &&& s.g)
  let t1 := (s.h + s1 + ch + k + w) % 4294967296
  let s0 := rotr32 2 s.a ^^^ rotr32 13 s.a ^^^ rotr32 22 s.a
  let mj := (s.a &&& s.b) ^^^ (s.a &&& s.c) ^^^ (s.b &&& s.c)
  let t2 := (s0 + mj) % 4294967296
  ⟨(t1 + t2) % 4294967296, s.a, s.b, s.c, (s.d + t1) % 4294967296, s.e, s.f, s.g⟩

def shaRounds : List (Nat × Nat) → Hash8 → Hash8
  | [], s => s
  | (k, w) :: rest, s => shaRounds rest (shaStep k w s)

def extendW : Nat → List Nat → List Nat
  | 0, ws => ws
  | fuel+1, ws =>
    let n := ws.length
    let w15 := ws.getD (n - 15) 0
    let w2 := ws.getD (n - 2) 0
    let sig0 := rotr32 7 w15 ^^^ rotr32 18 w15 ^^^ (w15 >>> 3)
    let sig1 := rotr32 17 w2 ^^^ rotr32 19 w2 ^^^ (w2 >>> 10)
    extendW fuel (ws ++ [(ws.getD (n - 16) 0 + sig0 + ws.getD (n - 7) 0 + sig1) % 4294967296])

def compressBlock (s : Hash8) (ws : List Nat) : Hash8 :=
  let w := extendW 48 ws
  let r := shaRounds (sha256K.zip w) s
  ⟨(s.a + r.a) % 4294967296, (s.b + r.b) % 4294967296, (s.c + r.c) % 4294967296,
   (s.d + r.d) % 4294967296, (s.e + r.e) % 4294967296, (s.f + r.f) % 4294967296,
   (s.g + r.g) % 4294967296, (s.h + r.h) % 4294967296⟩

def beBytes : Nat → Nat → List Nat
  | 0, _ => []
  | k+1, v => beBytes k (v >>> 8) ++ [v % 256]

def padMsg (m : List Nat) : List Nat :=
  m ++ 128 :: List.replicate ((119 - m.length % 64) % 64) 0 ++ beBytes 8 (8 * m.length)

def bytesToWords : List Nat → List Nat
  | b1 :: b2 :: b3 :: b4 :: rest => (((b1 * 256 + b2) * 256 + b3) * 256 + b4) :: bytesToWords rest
  | _ => []

def shaBlocks : Nat → List Nat → Hash8 → Hash8
  | 0, _, s => s
  | _+1, [], s => s
  | fuel+1, bytes, s => shaBlocks fuel (bytes.drop 64) (compressBlock s (bytesToWords (bytes.take 64)))

def hexDigit (n : Nat) : Char :=
  match n with
  | 0 => '0' | 1 => '1' | 2 => '2' | 3 => '3' | 4 => '4' | 5 => '5' | 6 => '6' | 7 => '7'
  | 8 => '8' | 9 => '9' | 10 => 'a' | 11 => 'b' | 12 => 'c' | 13 => 'd' | 14 => 'e' | _ => 'f'

def hexWord : Nat → Nat → List Char
  | 0, _ => []
  | k+1, v => hexWord k (v / 16) ++ [hexDigit (v % 16)]

def initHash : Hash8 :=
  match sha256H0 with
  | [a, b, c, d, e, f, g, h] => ⟨a, b, c, d, e, f, g, h⟩
  | _ => ⟨0, 0, 0, 0, 0, 0, 0, 0⟩

def sha256hex (m : List Nat) : String :=
  let p := padMsg m
  let s := shaBlocks (p.length / 64 + 1) p initHash
  ⟨hexWord 8 s.a ++ hexWord 8 s.b ++ hexWord 8 s.c ++ hexWord 8 s.d ++
   hexWord 8 s.e ++ hexWord 8 s.f ++ hexWord 8 s.g ++ hexWord 8 s.h⟩

def utf8Char (c : Char) : List Nat :=
  let v := c.toNat
  if v < 128 then [v]
  else if v < 2048 then [192 ||| (v >>> 6), 128 ||| (v &&& 63)]
  else if v < 65536 then
    [224 ||| (v >>> 12), 128 ||| ((v >>> 6) &&& 63), 128 ||| (v &&& 63)]
  else
    [240 ||| (v >>> 18), 128 ||| ((v >>> 12) &&& 63), 128 ||| ((v >>> 6) &&& 63), 128 ||| (v &&& 63)]

def utf8Bytes (s : String) : List Nat := s.data.foldr (fun c acc => utf8Char c ++ acc) []

/-- Sanity check of the SHA-256 embedding against the FIPS 180-2 test vector for "abc". -/
theorem sha256hex_abc :
    sha256hex (utf8Bytes "abc") =
      "ba7816bf8f01cfea414140de5dae2223b00361a396177a9cb410ff61f20015ad" := by decide

/-- Sanity check of the SHA-256 embedding against the test vector for the empty message. -/
theorem sha256hex_empty :
    sha256hex (utf8Bytes "") =
      "e3b0c44298fc1c149afbf4c8996fb92427ae41e4649b934ca495991b7852b855" := by decide

/-! ## Python argument values

`PyVal` models the Python values relevant to `safe_json` /
`_hash_input`: `None`, `bool`, `int`, `float`, `str`, `tuple`, `list`,
string-keyed `dict`, `pandas.DataFrame`, and `obj` standing for any
other (not JSON-serializable) object.  A `float` carries its Python
`repr` string (the exact characters `json.dumps` emits for it); a
`DataFrame` carries the integer `int(pd.util.hash_pandas_object(o).sum())`
that `serialize_df` maps it to. -/

inductive PyVal where
  | none
  | bool (b : Bool)
  | int (n : Int)
  | float (r : String)
  | str (s : String)
  | tuple (xs : List PyVal)
  | list (xs : List PyVal)
  | dict (kvs : List (String × PyVal))
  | df (h : Int)
  | obj

mutual

/-- Model of `safe_json` from cache.py: "determines if something can be serialized to JSON".
None, bool, int, float, str are safe; tuples/lists are safe when all
elements are; (string-keyed) dicts are safe when all values are;
DataFrames are deliberately safe ("we will hash them later"); anything
else is not. -/
def safe_json : PyVal → Bool
  | .none => true
  | .bool _ => true
  | .int _ => true
  | .float _ => true
  | .str _ => true
  | .tuple xs => safeList xs
  | .list xs => safeList xs
  | .dict kvs => safeKVs kvs
  | .df _ => true
  | .obj => false

/-- Model of `all(safe_json(x) for x in data)` over a tuple/list. -/
def safeList : List PyVal → Bool
  | [] => true
  | x :: xs => safe_json x && safeList xs

/-- Model of `all(isinstance(k, str) and safe_json(v) for k, v in data.items())`;
keys are strings by construction in this model. -/
def safeKVs : List (String × PyVal) → Bool
  | [] => true
  | (_, v) :: kvs => safe_json v && safeKVs kvs

end

/-- Decimal digits of a natural number, fuel-based so the kernel can
reduce it (`fuel ≥ 1` suffices whenever `n < 10^fuel`). -/
def natChars : Nat → Nat → List Char
  | 0, _ => []
  | fuel+1, n => if n < 10 then [hexDigit n] else natChars fuel (n / 10) ++ [hexDigit (n % 10)]

/-- The characters Python prints for an int (`repr`): optional minus sign
followed by decimal digits. -/
def intChars (n : Int) : List Char :=
  if n < 0 then '-' :: natChars (n.natAbs + 1) n.natAbs else natChars (n.natAbs + 1) n.natAbs

/-- Escape of one character inside a JSON string literal, as produced by
`json.dumps` with its default `ensure_ascii=True`: printable ASCII other
than quote and backslash is kept, everything else becomes a short or
`\uXXXX` escape (surrogate pairs beyond the BMP). -/
def escChar (c : Char) : List Char :=
  if c = '"' then ['\\', '"']
  else if c = '\\' then ['\\', '\\']
  else if 32 ≤ c.toNat && c.toNat ≤ 126 then [c]
  else if c = '\n' then ['\\', 'n']
  else if c = '\t' then ['\\', 't']
  else if c = '\r' then ['\\', 'r']
  else if c.toNat = 8 then ['\\', 'b']
  else if c.toNat = 12 then ['\\', 'f']
  else if c.toNat < 65536 then '\\' :: 'u' :: hexWord 4 c.toNat
  else
    '\\' :: 'u' :: hexWord 4 (55296 + ((c.toNat - 65536) >>> 10)) ++
      '\\' :: 'u' :: hexWord 4 (56320 + ((c.toNat - 65536) &&& 1023))

def escChars (cs : List Char) : List Char := cs.foldr (fun c acc => escChar c ++ acc) []

mutual

/-- Model of `json.dumps(v, default=serialize_df)` with Python's default
separators `", "` and `": "` — in particular dictionary keys are kept in
insertion order (no `sort_keys`).  Tuples and lists both serialize as
JSON arrays; a DataFrame is replaced by `serialize_df`'s integer hash;
any other non-serializable object makes `json.dumps` raise `TypeError`,
modelled as `Option.none`. -/
def dumps : PyVal → Option (List Char)
  | .none => some ['n', 'u', 'l', 'l']
  | .bool true => some ['t', 'r', 'u', 'e']
  | .bool false => some ['f', 'a', 'l', 's', 'e']
  | .int n => some (intChars n)
  | .float r => some r.data
  | .str s => some ('"' :: escChars s.data ++ ['"'])
  | .tuple xs => (dumpItems xs).map (fun l => '[' :: l ++ [']'])
  | .list xs => (dumpItems xs).map (fun l => '[' :: l ++ [']'])
  | .dict kvs => (dumpEntries kvs).map (fun l => '{' :: l ++ ['}'])
  | .df h => some (intChars h)
  | .obj => Option.none

/-- Array elements joined by `", "`. -/
def dumpItems : List PyVal → Option (List Char)
  | [] => some []
  | [x] => dumps x
  | x :: y :: rest =>
    (dumps x).bind fun cx =>
      (dumpItems (y :: rest)).map fun cr => cx ++ ',' :: ' ' :: cr

/-- Object entries `"key": value` joined by `", "`. -/
def dumpEntries : List (String × PyVal) → Option (List Char)
  | [] => some []
  | [(k, v)] => (dumps v).map fun cv => '"' :: escChars k.data ++ '"' :: ':' :: ' ' :: cv
  | (k, v) :: e :: rest =>
    (dumps v).bind fun cv =>
      (dumpEntries (e :: rest)).map fun cr =>
        ('"' :: escChars k.data ++ '"' :: ':' :: ' ' :: cv) ++ ',' :: ' ' :: cr

end

/-- The canonical structure `{'kwargs': kwargs, 'args': args}` built by
`_hash_input` after dropping arguments that fail `safe_json` (the
filtered positional arguments become a Python list). -/
def keyVal (args : List PyVal) (kwargs : List (String × PyVal)) : PyVal :=
  .dict [("kwargs", .dict (kwargs.filter fun kv => safe_json kv.2)),
         ("args", .list (args.filter safe_json))]

/-- The string `serialized = json.dumps(key, default=serialize_df)` of
`_hash_input` (`Option.none` would mean `json.dumps` raised). -/
def serialized_input (args : List PyVal) (kwargs : List (String × PyVal)) :
    Option (List Char) :=
  dumps (keyVal args kwargs)

/-- Model of `_hash_input` from cache.py: filter unsafe positional and keyword
arguments, serialize `{'kwargs': ..., 'args': ...}` to JSON, and return
the SHA-256 hex digest of the UTF-8 encoding. -/
def hash_input (args : List PyVal) (kwargs : List (String × PyVal)) : Option String :=
  (serialized_input args kwargs).map fun cs => sha256hex (utf8Bytes ⟨cs⟩)

/-! ## Cache manager model

The cache directory is modelled as an association list from path
strings to entries; an entry stores the decoded value (of an abstract
result type `V`), its last-modified time and its creation time, both in
integer seconds.  `isDF v` tells whether a result value is a
`pandas.DataFrame` (required by the parquet and feather codecs).
Directory creation (`os.makedirs`) and the `timeit` logging side
channel do not affect any state observed here and are not modelled. -/

structure Entry (V : Type) where
  value : V
  mtime : Int
  ctime : Int
deriving DecidableEq

def FS (V : Type) : Type := List (String × Entry V)

/-- Model of `os.path.getmtime` and the existence test: look a path up in the directory. -/
def fsGet {V : Type} (p : String) : FS V → Option (Entry V)
  | [] => Option.none
  | (q, e) :: fs => if q = p then some e else fsGet p fs

/-- Model of `os.remove`: delete a path. -/
def fsErase {V : Type} (p : String) : FS V → FS V
  | [] => []
  | (q, e) :: fs => if q = p then fsErase p fs else (q, e) :: fsErase p fs

/-- A full-file overwrite: the single visible effect of a codec write. -/
def fsWrite {V : Type} (p : String) (e : Entry V) (fs : FS V) : FS V :=
  (p, e) :: fsErase p fs

/-- Errors surfaced by the cache layer. `user e` is an exception raised
by the wrapped function itself, propagated unchanged; `badExt` is the
`'bad ext.'` / `'extension not supported'` failure (the spec's
UnsupportedFormat); `notFrame` models `pa.Table.from_pandas` /
`.to_feather` failing on a non-DataFrame value; `parseErr` models
`pd.to_timedelta` rejecting the `max_age` string; `ioErr` is a read of
a missing file; `jsonErr` would be `json.dumps` raising inside
`_hash_input`; `emptyMax` is `max()` on an empty glob result
(the spec's NoMatchingCacheEntry). -/
inductive CacheErr (ε : Type) where
  | user (e : ε)
  | badExt
  | notFrame
  | parseErr
  | ioErr
  | jsonErr
  | emptyMax
deriving DecidableEq

/-- Model of `path.split('.')[-1]`: the segment after the last dot (the whole
string when there is no dot). -/
def extOf (p : String) : String := ⟨(p.data.reverse.takeWhile (· ≠ '.')).reverse⟩

/-- Model of `write_to_disk(obj, path)`: dispatch on the path's extension;
parquet and feather require a DataFrame, pickle takes anything, any
other extension raises `'bad ext.'`.  A successful write overwrites the
file in full and stamps both times with `now`. -/
def write_to_disk {V ε : Type} (isDF : V → Bool) (v : V) (p : String) (now : Int)
    (fs : FS V) : Except (CacheErr ε) (FS V) :=
  if extOf p = "parquet" then
    if isDF v then .ok (fsWrite p ⟨v, now, now⟩ fs) else .error .notFrame
  else if extOf p = "feather" then
    if isDF v then .ok (fsWrite p ⟨v, now, now⟩ fs) else .error .notFrame
  else if extOf p = "pkl" then .ok (fsWrite p ⟨v, now, now⟩ fs)
  else .error .badExt

/-- Model of `read_from_disk(path)`: dispatch on the path's extension and decode
the stored artifact; reading a missing file is an I/O error; any other
extension raises `'bad ext.'`. -/
def read_from_disk {V ε : Type} (p : String) (fs : FS V) : Except (CacheErr ε) V :=
  if extOf p = "parquet" ∨ extOf p = "feather" ∨ extOf p = "pkl" then
    match fsGet p fs with
    | some e => .ok e.value
    | Option.none => .error .ioErr
  else .error .badExt

/-- Model of `pd.to_timedelta(max_age).total_seconds()`, built from the spec's
duration-string format (§6): one or more digits followed by a single
unit letter — S (seconds), T (minutes), H (hours), D (days) in pandas
offset-alias style; anything else fails to parse. -/
def unitSecs (c : Char) : Option Int :=
  if c = 'S' then some 1
  else if c = 'T' then some 60
  else if c = 'H' then some 3600
  else if c = 'D' then some 86400
  else Option.none

def toTimedelta (s : String) : Option Int :=
  let ds := s.data.takeWhile Char.isDigit
  let rest := s.data.dropWhile Char.isDigit
  if ds.isEmpty then Option.none
  else
    match rest with
    | [u] => (unitSecs u).map fun m => (ds.foldl (fun a c => a * 10 + (c.toNat - 48)) 0 : Int) * m
    | _ => Option.none

/-- Model of `HOME = os.environ.get('HOME', '.')` and `CACHE_PATH = HOME + '/.zdata'`. -/
def CACHE_PATH (home : String) : String := home ++ "/.zdata"

/-- Model of `_cache_path(func, *args, **kwargs)`: `{CACHE_PATH}/{func.__name__}-{_hash_input(...)}`
(no extension yet; `Option.none` if `json.dumps` were to raise). -/
def cache_path (home fname : String) (args : List PyVal)
    (kwargs : List (String × PyVal)) : Option String :=
  (hash_input args kwargs).map fun h => CACHE_PATH home ++ "/" ++ fname ++ "-" ++ h

/-- The per-wrap configuration captured by the `disk_cache` decorator. -/
structure Config where
  max_age : String
  ext : String

/-- Model of `VALID_EXT = set(['parquet', 'pkl', 'feather'])`. -/
def VALID_EXT : List String := ["parquet", "pkl", "feather"]

/-- Wrap-time behaviour of the `disk_cache` decorator: validate the
extension once, before any call, and capture the configuration. -/
def disk_cache {ε : Type} (max_age ext : String) : Except (CacheErr ε) Config :=
  if ext ∈ VALID_EXT then .ok ⟨max_age, ext⟩ else .error .badExt

/-- Result of one call of the memoized wrapper: the returned value or
propagated error, the filesystem afterwards, and how many times the
underlying function was invoked during the call. -/
structure CallResult (V ε : Type) where
  out : Except (CacheErr ε) V
  fs : FS V
  calls : Nat

theorem fsGet_some_length_lt {V : Type} (p : String) (fs : FS V) (e : Entry V)
    (h : fsGet p fs = some e) : (fsErase p fs).length < fs.length := by
  induction fs with
  | nil => simp [fsGet] at h
  | cons kv fs ih =>
    obtain ⟨q, e'⟩ := kv
    by_cases hq : q = p
    · subst hq
      simp only [fsErase, if_pos rfl, List.length_cons]
      calc (fsErase q fs).length ≤ fs.length := by
            clear h ih
            induction fs with
            | nil => simp [fsErase]
            | cons kv fs ih2 =>
              obtain ⟨r, e''⟩ := kv
              by_cases hr : r = q <;> simp [fsErase, hr] <;> omega
        _ < fs.length + 1 := by omega
    · simp only [fsGet, if_neg hq] at h
      simp only [fsErase, if_neg hq, List.length_cons]
      exact Nat.succ_lt_succ (ih h)

/-- One call of `wrapper(*args, **kwargs)` (cache.py lines 117–132):
derive the path from the argument hash plus the configured extension;
on a miss invoke the function and write the result; on a hit compare
the entry's age against the parsed `max_age` and either read it back or
delete it and recurse.  `now` is the value of `time.time()`. -/
def wrapper {V ε : Type} (isDF : V → Bool) (home : String) (cfg : Config)
    (f : List PyVal → List (String × PyVal) → Except ε V) (fname : String)
    (args : List PyVal) (kwargs : List (String × PyVal)) (now : Int)
    (fs : FS V) : CallResult V ε :=
  match cache_path home fname args kwargs with
  | Option.none => ⟨.error .jsonErr, fs, 0⟩
  | some base =>
    let path := base ++ "." ++ cfg.ext
    match hfs : fsGet path fs with
    | Option.none =>
      match f args kwargs with
      | .error e => ⟨.error (.user e), fs, 1⟩
      | .ok v =>
        match write_to_disk isDF v path now fs with
        | .error ce => ⟨.error ce, fs, 1⟩
        | .ok fs' => ⟨.ok v, fs', 1⟩
    | some entry =>
      match toTimedelta cfg.max_age with
      | Option.none => ⟨.error .parseErr, fs, 0⟩
      | some secs =>
        if now - entry.mtime < secs then ⟨read_from_disk path fs, fs, 0⟩
        else
          let r := wrapper isDF home cfg f fname args kwargs now (fsErase path fs)
          ⟨r.out, r.fs, r.calls⟩
termination_by fs.length
decreasing_by exact fsGet_some_length_lt _ _ _ hfs

/-- True when `p` starts with `q` (character-wise), giving glob's semantics for
the pattern `q*` over a flat file name. -/
def charsStart : List Char → List Char → Bool
  | [], _ => true
  | _ :: _, [] => false
  | c :: cs, d :: ds => c = d && charsStart cs ds

def strStarts (q p : String) : Bool := charsStart q.data p.data

/-- Model of `max(files, key=os.path.getctime)`: Python's `max` scans left to
right and replaces the current maximum only on a strictly greater key,
so the first element wins ties. -/
def maxByCtime {V : Type} (fs : List (String × Entry V)) : Option (String × Entry V) :=
  fs.foldl (fun acc kv =>
    match acc with
    | Option.none => some kv
    | some best => if kv.2.ctime > best.2.ctime then some kv else some best) Option.none

/-- Model of `_load_most_recent_from_cache(contains)`: glob
`{CACHE_PATH}/{contains}*` (a PREFIX pattern on the file name), take the
match with the greatest ctime (first on ties), and decode it via
`read_from_disk`; `max()` of an empty glob raises `ValueError`. -/
def load_most_recent {V ε : Type} (home : String) (contains : String)
    (fs : FS V) : Except (CacheErr ε) V :=
  let files := fs.filter fun kv => strStarts (CACHE_PATH home ++ "/" ++ contains) kv.1
  match maxByCtime files with
  | Option.none => .error .emptyMax
  | some kv => read_from_disk kv.1 fs

/-! ## Filesystem and path lemmas -/

theorem fsGet_fsErase_self {V : Type} (p : String) (fs : FS V) :
    fsGet p (fsErase p fs) = Option.none := by
  induction fs with
  | nil => rfl
  | cons kv fs ih =>
    obtain ⟨q, e⟩ := kv
    by_cases hq : q = p
    · simpa [fsErase, hq] using ih
    · simpa [fsErase, fsGet, hq] using ih

theorem fsErase_of_get_none {V : Type} (p : String) (fs : FS V)
    (h : fsGet p fs = Option.none) : fsErase p fs = fs := by
  induction fs with
  | nil => rfl
  | cons kv fs ih =>
    obtain ⟨q, e⟩ := kv
    by_cases hq : q = p
    · simp [fsGet, hq] at h
    · simp only [fsGet, if_neg hq] at h
      simp [fsErase, hq, ih h]

theorem fsGet_fsWrite_self {V : Type} (p : String) (e : Entry V) (fs : FS V) :
    fsGet p (fsWrite p e fs) = some e := by
  simp [fsWrite, fsGet]

theorem fsErase_idem {V : Type} (p : String) (fs : FS V) :
    fsErase p (fsErase p fs) = fsErase p fs := by
  induction fs with
  | nil => rfl
  | cons kv fs ih =>
    obtain ⟨q, e⟩ := kv
    by_cases hq : q = p
    · simp [fsErase, hq, ih]
    · simp [fsErase, hq, ih]

theorem takeWhile_append_stop {α : Type} {p : α → Bool} (l r : List α)
    (hl : ∀ c ∈ l, p c = true) (hr : r = [] ∨ ∃ c cs, r = c :: cs ∧ p c = false) :
    (l ++ r).takeWhile p = l ∧ (l ++ r).dropWhile p = r := by
  induction l with
  | nil =>
    rcases hr with h | ⟨c, cs, rfl, hc⟩
    · simp [h]
    · simp [List.takeWhile, List.dropWhile, hc]
  | cons a l ih =>
    have ha : p a = true := hl a (by simp)
    have := ih (fun c hc => hl c (by simp [hc]))
    simp [List.takeWhile, List.dropWhile, ha, this.1, this.2]

theorem extOf_append {s ext : String} (hne : ext.data ≠ [])
    (hdot : ∀ c ∈ ext.data, (c ≠ '.' : Bool) = true) :
    extOf (s ++ "." ++ ext) = ext := by
  have hdata : (s ++ "." ++ ext).data = s.data ++ '.' :: ext.data := by
    simp [String.data_append]
  have hrev : (s.data ++ '.' :: ext.data).reverse
      = ext.data.reverse ++ '.' :: s.data.reverse := by
    simp
  have hstop := takeWhile_append_stop (p := fun c => decide (c ≠ '.'))
    ext.data.reverse ('.' :: s.data.reverse)
    (fun c hc => hdot c (List.mem_reverse.mp hc))
    (Or.inr ⟨'.', s.data.reverse, rfl, by simp⟩)
  show String.mk _ = ext
  rw [hdata, hrev, hstop.1]
  simp

theorem extOf_valid (ext : String) (hv : ext ∈ VALID_EXT) (s : String) :
    extOf (s ++ "." ++ ext) = ext := by
  simp only [VALID_EXT, List.mem_cons, List.not_mem_nil, or_false] at hv
  rcases hv with rfl | rfl | rfl
  · exact extOf_append (by simp) (by decide)
  · exact extOf_append (by simp) (by decide)
  · exact extOf_append (by simp) (by decide)

/-! ## One-step unfolding laws for the wrapper -/

section WrapperEqs

variable {V ε : Type} (isDF : V → Bool) (home : String) (cfg : Config)
  (f : List PyVal → List (String × PyVal) → Except ε V) (fname : String)
  (args : List PyVal) (kwargs : List (String × PyVal)) (now : Int) (fs : FS V)

theorem wrapper_nopath (h : cache_path home fname args kwargs = Option.none) :
    wrapper isDF home cfg f fname args kwargs now fs = ⟨.error .jsonErr, fs, 0⟩ := by
  unfold wrapper
  rw [h]

theorem wrapper_miss {base : String}
    (hb : cache_path home fname args kwargs = some base)
    (hfs : fsGet (base ++ "." ++ cfg.ext) fs = Option.none) :
    wrapper isDF home cfg f fname args kwargs now fs =
      match f args kwargs with
      | .error e => ⟨.error (.user e), fs, 1⟩
      | .ok v =>
        match write_to_disk isDF v (base ++ "." ++ cfg.ext) now fs with
        | .error ce => ⟨.error ce, fs, 1⟩
        | .ok fs' => ⟨.ok v, fs', 1⟩ := by
  unfold wrapper
  rw [hb]
  dsimp only
  split
  · rfl
  · rename_i entry heq
    rw [hfs] at heq
    cases heq

theorem wrapper_hit_fresh {base : String} {entry : Entry V} {secs : Int}
    (hb : cache_path home fname args kwargs = some base)
    (hfs : fsGet (base ++ "." ++ cfg.ext) fs = some entry)
    (ht : toTimedelta cfg.max_age = some secs)
    (hage : now - entry.mtime < secs) :
    wrapper isDF home cfg f fname args kwargs now fs =
      ⟨read_from_disk (base ++ "." ++ cfg.ext) fs, fs, 0⟩ := by
  unfold wrapper
  rw [hb]
  dsimp only
  split
  · rename_i heq
    rw [hfs] at heq
    cases heq
  · rename_i entry' heq
    rw [hfs] at heq
    injection heq with h
    subst h
    rw [ht]
    dsimp only
    rw [if_pos hage]

theorem wrapper_hit_parseErr {base : String} {entry : Entry V}
    (hb : cache_path home fname args kwargs = some base)
    (hfs : fsGet (base ++ "." ++ cfg.ext) fs = some entry)
    (ht : toTimedelta cfg.max_age = Option.none) :
    wrapper isDF home cfg f fname args kwargs now fs = ⟨.error .parseErr, fs, 0⟩ := by
  unfold wrapper
  rw [hb]
  dsimp only
  split
  · rename_i heq
    rw [hfs] at heq
    cases heq
  · rename_i entry' heq
    rw [hfs] at heq
    injection heq with h
    subst h
    rw [ht]

theorem wrapper_hit_stale {base : String} {entry : Entry V} {secs : Int}
    (hb : cache_path home fname args kwargs = some base)
    (hfs : fsGet (base ++ "." ++ cfg.ext) fs = some entry)
    (ht : toTimedelta cfg.max_age = some secs)
    (hage : ¬(now - entry.mtime < secs)) :
    wrapper isDF home cfg f fname args kwargs now fs =
      wrapper isDF home cfg f fname args kwargs now (fsErase (base ++ "." ++ cfg.ext) fs) := by
  conv_lhs => unfold wrapper
  rw [hb]
  dsimp only
  split
  · rename_i heq
    rw [hfs] at heq
    cases heq
  · rename_i entry' heq
    rw [hfs] at heq
    injection heq with h
    subst h
    rw [ht]
    dsimp only
    rw [if_neg hage]

end WrapperEqs

/-- Compatibility of a result value with the configured format: pickle
serializes anything, parquet and feather only DataFrames. -/
def writeOK {V : Type} (isDF : V → Bool) (ext : String) (v : V) : Bool :=
  isDF v || (ext = "pkl")

theorem write_to_disk_ok {V ε : Type} (isDF : V → Bool) (v : V) (s ext : String)
    (now : Int) (fs : FS V) (hv : ext ∈ VALID_EXT) (hc : writeOK isDF ext v = true) :
    write_to_disk (ε := ε) isDF v (s ++ "." ++ ext) now fs =
      .ok (fsWrite (s ++ "." ++ ext) ⟨v, now, now⟩ fs) := by
  have hex := extOf_valid ext hv s
  simp only [VALID_EXT, List.mem_cons, List.not_mem_nil, or_false] at hv
  simp only [writeOK] at hc
  rcases hv with rfl | rfl | rfl
  · have hdf : isDF v = true := by simpa using hc
    simp [write_to_disk, hex, hdf]
  · simp [write_to_disk, hex]
  · have hdf : isDF v = true := by simpa using hc
    simp [write_to_disk, hex, hdf]

theorem read_from_disk_ok {V ε : Type} (s ext : String) (fs : FS V) (e : Entry V)
    (hv : ext ∈ VALID_EXT) (hget : fsGet (s ++ "." ++ ext) fs = some e) :
    read_from_disk (ε := ε) (s ++ "." ++ ext) fs = .ok e.value := by
  have hex := extOf_valid ext hv s
  simp only [VALID_EXT, List.mem_cons, List.not_mem_nil, or_false] at hv
  rcases hv with rfl | rfl | rfl <;> simp [read_from_disk, hex, hget]

/-! ## Claim C1 and C3: miss-then-hit and staleness eviction -/

/-- C1: for a wrapped pure function, the first call with given arguments
(a miss) invokes the underlying function exactly once and writes exactly
one cache entry at the computed path, stamped `now`; a second call with
the same arguments while the entry's age `now' − now` is strictly below
the parsed `max_age` invokes the underlying function zero times and
returns the value read back from the entry via the codec. -/
theorem C1_miss_then_hit {V ε : Type} (isDF : V → Bool) (home : String) (cfg : Config)
    (f : List PyVal → List (String × PyVal) → Except ε V) (fname : String)
    (args : List PyVal) (kwargs : List (String × PyVal)) {base : String} {T : Int}
    {v : V} (fs0 : FS V) (now now' : Int)
    (hb : cache_path home fname args kwargs = some base)
    (hext : cfg.ext ∈ VALID_EXT)
    (hT : toTimedelta cfg.max_age = some T)
    (hcompat : writeOK isDF cfg.ext v = true)
    (hf : f args kwargs = .ok v)
    (hmiss : fsGet (base ++ "." ++ cfg.ext) fs0 = Option.none)
    (hfresh : now' - now < T) :
    let path := base ++ "." ++ cfg.ext
    let r1 := wrapper isDF home cfg f fname args kwargs now fs0
    let r2 := wrapper isDF home cfg f fname args kwargs now' r1.fs
    r1.calls = 1 ∧ r1.out = .ok v ∧ r1.fs = fsWrite path ⟨v, now, now⟩ fs0 ∧
      fsGet path r1.fs = some ⟨v, now, now⟩ ∧
      r2.calls = 0 ∧ r2.out = .ok v ∧ r2.fs = r1.fs := by
  intro path r1 r2
  have h1 : r1 = ⟨.ok v, fsWrite path ⟨v, now, now⟩ fs0, 1⟩ := by
    show wrapper isDF home cfg f fname args kwargs now fs0 = _
    rw [wrapper_miss isDF home cfg f fname args kwargs now fs0 hb hmiss, hf]
    dsimp only
    rw [write_to_disk_ok isDF v base cfg.ext now fs0 hext hcompat]
  have hget1 : fsGet path r1.fs = some ⟨v, now, now⟩ := by
    rw [h1]
    exact fsGet_fsWrite_self path _ fs0
  have h2 : r2 = ⟨.ok v, r1.fs, 0⟩ := by
    show wrapper isDF home cfg f fname args kwargs now' r1.fs = _
    rw [wrapper_hit_fresh isDF home cfg f fname args kwargs now' r1.fs hb hget1 hT
      (by simpa using hfresh)]
    rw [read_from_disk_ok base cfg.ext r1.fs ⟨v, now, now⟩ hext hget1]
  rw [h1, h2]
  simp [h1]
  exact fsGet_fsWrite_self path _ fs0

/-- C3: a call that finds an existing entry whose age is at least the
parsed `max_age` deletes that entry and then behaves exactly as a fresh
miss: the underlying function is invoked once more and a new entry is
written at the same path with a fresh timestamp. -/
theorem C3_stale_eviction {V ε : Type} (isDF : V → Bool) (home : String) (cfg : Config)
    (f : List PyVal → List (String × PyVal) → Except ε V) (fname : String)
    (args : List PyVal) (kwargs : List (String × PyVal)) {base : String} {T : Int}
    {v : V} (entry : Entry V) (fs0 : FS V) (now : Int)
    (hb : cache_path home fname args kwargs = some base)
    (hext : cfg.ext ∈ VALID_EXT)
    (hT : toTimedelta cfg.max_age = some T)
    (hcompat : writeOK isDF cfg.ext v = true)
    (hf : f args kwargs = .ok v)
    (hhit : fsGet (base ++ "." ++ cfg.ext) fs0 = some entry)
    (hstale : now - entry.mtime ≥ T) :
    let path := base ++ "." ++ cfg.ext
    let r := wrapper isDF home cfg f fname args kwargs now fs0
    r.calls = 1 ∧ r.out = .ok v ∧
      r.fs = (path, ⟨v, now, now⟩) :: fsErase path fs0 ∧
      fsGet path r.fs = some ⟨v, now, now⟩ := by
  intro path r
  have hr : r = ⟨.ok v, (path, ⟨v, now, now⟩) :: fsErase path fs0, 1⟩ := by
    show wrapper isDF home cfg f fname args kwargs now fs0 = _
    rw [wrapper_hit_stale isDF home cfg f fname args kwargs now fs0 hb hhit hT
      (by omega)]
    rw [wrapper_miss isDF home cfg f fname args kwargs now (fsErase path fs0) hb
      (fsGet_fsErase_self path fs0), hf]
    dsimp only
    rw [write_to_disk_ok isDF v base cfg.ext now (fsErase path fs0) hext hcompat]
    simp [fsWrite, fsErase_idem]
  rw [hr]
  refine ⟨rfl, rfl, rfl, ?_⟩
  simp [fsGet]

theorem write_to_disk_err {V ε : Type} (isDF : V → Bool) (v : V) (s ext : String)
    (now : Int) (fs : FS V) (ce : CacheErr ε) (hv : ext ∈ VALID_EXT)
    (hw : write_to_disk isDF v (s ++ "." ++ ext) now fs = .error ce) : ce = .notFrame := by
  have hex := extOf_valid ext hv s
  simp only [VALID_EXT, List.mem_cons, List.not_mem_nil, or_false] at hv
  rcases hv with rfl | rfl | rfl
  · simp only [write_to_disk, hex] at hw
    by_cases hdf : isDF v = true
    · simp [hdf] at hw
    · simp [hdf] at hw
      exact hw.symm
  · simp only [write_to_disk, hex] at hw
    simp at hw
  · simp only [write_to_disk, hex] at hw
    by_cases hdf : isDF v = true
    · simp [hdf] at hw
    · simp [hdf] at hw
      exact hw.symm

theorem read_from_disk_match {V ε : Type} (p : String) (fs : FS V)
    (h : extOf p = "parquet" ∨ extOf p = "feather" ∨ extOf p = "pkl") :
    read_from_disk (ε := ε) p fs =
      (match fsGet p fs with
        | some e => .ok e.value
        | Option.none => .error .ioErr) := by
  rw [read_from_disk, if_pos h]

theorem read_from_disk_err {V ε : Type} (s ext : String) (fs : FS V) (ce : CacheErr ε)
    (hv : ext ∈ VALID_EXT) (hr : read_from_disk (ε := ε) (s ++ "." ++ ext) fs = .error ce) :
    ce = .ioErr := by
  have hex := extOf_valid ext hv s
  have hd : extOf (s ++ "." ++ ext) = "parquet" ∨ extOf (s ++ "." ++ ext) = "feather" ∨
      extOf (s ++ "." ++ ext) = "pkl" := by
    simp only [VALID_EXT, List.mem_cons, List.not_mem_nil, or_false] at hv
    rcases hv with rfl | rfl | rfl <;> simp [hex]
  rw [read_from_disk_match _ fs hd] at hr
  rcases hg : fsGet (s ++ "." ++ ext) fs with _ | e
  · simp [hg] at hr
    simp_all
  · simp [hg] at hr

/-- C4 amended: if the underlying function raises on a miss or stale
path, the same error propagates unchanged and no cache entry is written
for the failed computation; on a miss the filesystem is untouched,
while on a stale path the stale entry has already been deleted, so the
path is left with no entry at all (NOT in its pre-call state). -/
theorem C4_error_propagation {V ε : Type} (isDF : V → Bool) (home : String) (cfg : Config)
    (f : List PyVal → List (String × PyVal) → Except ε V) (fname : String)
    (args : List PyVal) (kwargs : List (String × PyVal)) {base : String} {e : ε}
    (fs0 : FS V) (now : Int)
    (hb : cache_path home fname args kwargs = some base)
    (hf : f args kwargs = .error e) :
    let path := base ++ "." ++ cfg.ext
    let r := wrapper isDF home cfg f fname args kwargs now fs0
    (fsGet path fs0 = Option.none →
      r.out = .error (.user e) ∧ r.fs = fs0 ∧ r.calls = 1 ∧ fsGet path r.fs = Option.none) ∧
    (∀ entry T, fsGet path fs0 = some entry → toTimedelta cfg.max_age = some T →
      now - entry.mtime ≥ T →
      r.out = .error (.user e) ∧ r.fs = fsErase path fs0 ∧ r.calls = 1 ∧
        fsGet path r.fs = Option.none) := by
  intro path r
  constructor
  · intro hmiss
    have hr : r = ⟨.error (.user e), fs0, 1⟩ := by
      show wrapper isDF home cfg f fname args kwargs now fs0 = _
      rw [wrapper_miss isDF home cfg f fname args kwargs now fs0 hb hmiss, hf]
    rw [hr]
    exact ⟨rfl, rfl, rfl, hmiss⟩
  · intro entry T hhit hT hage
    have hr : r = ⟨.error (.user e), fsErase path fs0, 1⟩ := by
      show wrapper isDF home cfg f fname args kwargs now fs0 = _
      rw [wrapper_hit_stale isDF home cfg f fname args kwargs now fs0 hb hhit hT (by omega)]
      rw [wrapper_miss isDF home cfg f fname args kwargs now (fsErase path fs0) hb
        (fsGet_fsErase_self path fs0), hf]
    rw [hr]
    exact ⟨rfl, rfl, rfl, fsGet_fsErase_self path fs0⟩

/-- Digest of the empty-argument canonical structure, fixed once for the
concrete scenarios below (it matches CPython:
`sha256(json.dumps({'kwargs': {}, 'args': []}).encode()).hexdigest()`). -/
theorem hash_input_nil :
    hash_input [] [] =
      some "92aa8adc0180c47fe2be067fcaffc129204836cad32bf43fdc7aa81d7bd208dc" := by decide

/-- C4 counterexample: with a stale entry present and an underlying
function that raises, the call deletes the stale entry before invoking
the function, so the cache state at the computed path is NOT the same
as before the call (the claim's "same as before" is false), even though
the error does propagate unchanged. -/
theorem C4_counterexample :
    let base := (cache_path "/h" "g" [] []).getD ""
    let path := base ++ "." ++ "pkl"
    let fs0 : FS Int := [(path, ⟨0, 0, 0⟩)]
    let r := wrapper (V := Int) (ε := String) (fun _ => false) "/h" ⟨"1S", "pkl"⟩
      (fun _ _ => .error "boom") "g" [] [] 1000000 fs0
    r.out = .error (.user "boom") ∧ fsGet path r.fs ≠ fsGet path fs0 := by
  intro base path fs0 r
  have hb : cache_path "/h" "g" [] [] = some base := by
    rw [show cache_path "/h" "g" [] [] =
      some "/h/.zdata/g-92aa8adc0180c47fe2be067fcaffc129204836cad32bf43fdc7aa81d7bd208dc"
      from by rw [cache_path, hash_input_nil]; rfl]
    rfl
  have hhit : fsGet path fs0 = some ⟨0, 0, 0⟩ := by
    simp [fsGet, fs0]
  have ht : toTimedelta "1S" = some 1 := by rfl
  have hr : r = ⟨.error (.user "boom"), [], 1⟩ := by
    show wrapper (V := Int) (ε := String) (fun _ => false) "/h" ⟨"1S", "pkl"⟩
      (fun _ _ => .error "boom") "g" [] [] 1000000 fs0 = _
    rw [wrapper_hit_stale (fun _ => false) "/h" ⟨"1S", "pkl"⟩ (fun _ _ => .error "boom")
      "g" [] [] 1000000 fs0 hb hhit ht (by norm_num)]
    have herase : fsErase (base ++ "." ++ ("1S", "pkl").2) fs0 = [] := by
      simp [fsErase, fs0, path]
    rw [show fsErase (base ++ "." ++ (Config.mk "1S" "pkl").ext) fs0 = [] from by
      simp [fsErase, fs0, path]]
    rw [wrapper_miss (fun _ => false) "/h" ⟨"1S", "pkl"⟩ (fun _ _ => .error "boom")
      "g" [] [] 1000000 [] hb rfl]
  rw [hr]
  refine ⟨rfl, ?_⟩
  rw [hhit]
  simp [fsGet]

/-- C9: `max_age` is never parsed at wrap time nor on a miss.  Wrapping
succeeds for ANY `max_age` string whenever the extension is valid; a
miss call completes and writes the entry with no constraint on
`max_age`; and the string is parsed only when an existing entry is
found, where an unparseable `max_age` surfaces as an error. -/
theorem C9_lazy_max_age_parse {V ε : Type} (isDF : V → Bool) :
    (∀ max_age ext, ext ∈ VALID_EXT →
      disk_cache (ε := ε) max_age ext = .ok ⟨max_age, ext⟩) ∧
    (∀ home (cfg : Config) (f : List PyVal → List (String × PyVal) → Except ε V)
      fname args kwargs (now : Int) (fs0 : FS V) base (v : V),
      cache_path home fname args kwargs = some base →
      cfg.ext ∈ VALID_EXT → writeOK isDF cfg.ext v = true →
      f args kwargs = .ok v →
      fsGet (base ++ "." ++ cfg.ext) fs0 = Option.none →
      wrapper isDF home cfg f fname args kwargs now fs0 =
        ⟨.ok v, fsWrite (base ++ "." ++ cfg.ext) ⟨v, now, now⟩ fs0, 1⟩) ∧
    (∀ home (cfg : Config) (f : List PyVal → List (String × PyVal) → Except ε V)
      fname args kwargs (now : Int) (fs0 : FS V) base entry,
      cache_path home fname args kwargs = some base →
      fsGet (base ++ "." ++ cfg.ext) fs0 = some entry →
      toTimedelta cfg.max_age = Option.none →
      wrapper isDF home cfg f fname args kwargs now fs0 = ⟨.error .parseErr, fs0, 0⟩) := by
  refine ⟨?_, ?_, ?_⟩
  · intro max_age ext hv
    rw [disk_cache, if_pos hv]
  · intro home cfg f fname args kwargs now fs0 base v hb hext hcompat hf hmiss
    rw [wrapper_miss isDF home cfg f fname args kwargs now fs0 hb hmiss, hf]
    dsimp only
    rw [write_to_disk_ok isDF v base cfg.ext now fs0 hext hcompat]
  · intro home cfg f fname args kwargs now fs0 base entry hb hhit ht
    exact wrapper_hit_parseErr isDF home cfg f fname args kwargs now fs0 hb hhit ht

/-- C6: wrapping raises UnsupportedFormat exactly when the requested
extension is outside {parquet, pkl, feather}; the check happens at wrap
time (a valid extension yields the configuration, before any call), and
no call of the wrapper ever raises UnsupportedFormat afterwards. -/
theorem C6_wrap_time_format_validation {V ε : Type} (isDF : V → Bool) :
    (∀ max_age ext, (disk_cache (ε := ε) max_age ext = .error .badExt ↔ ext ∉ VALID_EXT) ∧
      (ext ∈ VALID_EXT → disk_cache (ε := ε) max_age ext = .ok ⟨max_age, ext⟩)) ∧
    (∀ home (cfg : Config) (f : List PyVal → List (String × PyVal) → Except ε V)
      fname args kwargs (now : Int) (fs : FS V),
      cfg.ext ∈ VALID_EXT →
      (wrapper isDF home cfg f fname args kwargs now fs).out ≠ .error (.badExt : CacheErr ε)) := by
  constructor
  · intro max_age ext
    constructor
    · by_cases hv : ext ∈ VALID_EXT
      · rw [disk_cache, if_pos hv]
        simp [hv]
      · rw [disk_cache, if_neg hv]
        simp [hv]
    · intro hv
      rw [disk_cache, if_pos hv]
  · intro home cfg f fname args kwargs now fs hext
    generalize hn : fs.length = n
    induction n using Nat.strong_induction_on generalizing fs with
    | _ n ih =>
      rcases hcp : cache_path home fname args kwargs with _ | base
      · rw [wrapper_nopath isDF home cfg f fname args kwargs now fs hcp]
        simp
      · rcases hfs : fsGet (base ++ "." ++ cfg.ext) fs with _ | entry
        · rw [wrapper_miss isDF home cfg f fname args kwargs now fs hcp hfs]
          rcases hf : f args kwargs with e | v
          · simp
          · dsimp only
            rcases hw : write_to_disk isDF v (base ++ "." ++ cfg.ext) now fs with ce | fs'
            · have := write_to_disk_err isDF v base cfg.ext now fs ce hext hw
              subst this
              simp
            · simp
        · rcases ht : toTimedelta cfg.max_age with _ | secs
          · rw [wrapper_hit_parseErr isDF home cfg f fname args kwargs now fs hcp hfs ht]
            simp
          · by_cases hage : now - entry.mtime < secs
            · rw [wrapper_hit_fresh isDF home cfg f fname args kwargs now fs hcp hfs ht hage]
              dsimp only
              rcases hrd : read_from_disk (ε := ε) (base ++ "." ++ cfg.ext) fs with ce | v
              · have := read_from_disk_err base cfg.ext fs ce hext hrd
                subst this
                simp
              · simp
            · rw [wrapper_hit_stale isDF home cfg f fname args kwargs now fs hcp hfs ht hage]
              exact ih (fsErase (base ++ "." ++ cfg.ext) fs).length
                (hn ▸ fsGet_some_length_lt _ fs entry hfs) _ rfl

theorem charsStart_append_same (l x y : List Char) :
    charsStart (l ++ x) (l ++ y) = charsStart x y := by
  induction l with
  | nil => rfl
  | cons c l ih => simp [charsStart, ih]

/-- C5 divergence witness: the cache directory holds a single file whose
name CONTAINS the substring "foo" but does not START with it; the
claim (and the function's own docstring) promise the entry is found and
decoded, but the glob pattern `{contains}*` is a prefix match, so zero
files match and the call fails with the empty-`max()` error. -/
theorem C5_prefix_glob_misses_containing_name {V ε : Type} (home : String) (e : Entry V) :
    load_most_recent (ε := ε) home "foo"
      [(CACHE_PATH home ++ "/" ++ "afoo.pkl", e)] = .error .emptyMax := by
  have hpref : strStarts (CACHE_PATH home ++ "/" ++ "foo")
      (CACHE_PATH home ++ "/" ++ "afoo.pkl") = false := by
    show charsStart _ _ = false
    simp only [String.data_append]
    rw [charsStart_append_same]
    decide
  rw [load_most_recent]
  simp [hpref]
  rfl

mutual

theorem dumps_isSome : ∀ (v : PyVal), safe_json v = true → (dumps v).isSome = true
  | .none, _ => rfl
  | .bool b, _ => by cases b <;> rfl
  | .int _, _ => rfl
  | .float _, _ => rfl
  | .str _, _ => rfl
  | .tuple xs, h => by
    have hx := dumpItems_isSome xs h
    rw [dumps]
    rcases hd : dumpItems xs with _ | l
    · rw [hd] at hx
      cases hx
    · rfl
  | .list xs, h => by
    have hx := dumpItems_isSome xs h
    rw [dumps]
    rcases hd : dumpItems xs with _ | l
    · rw [hd] at hx
      cases hx
    · rfl
  | .dict kvs, h => by
    have hx := dumpEntries_isSome kvs h
    rw [dumps]
    rcases hd : dumpEntries kvs with _ | l
    · rw [hd] at hx
      cases hx
    · rfl
  | .df _, _ => rfl
  | .obj, h => by cases h

theorem dumpItems_isSome : ∀ (xs : List PyVal), safeList xs = true → (dumpItems xs).isSome = true
  | [], _ => rfl
  | [x], h => by
    have hx : safe_json x = true := by
      have := h
      rw [safeList] at this
      exact (by simpa using this : safe_json x = true ∧ safeList [] = true).1
    have := dumps_isSome x hx
    rw [dumpItems]
    exact this
  | x :: y :: rest, h => by
    have hsp : safe_json x = true ∧ safeList (y :: rest) = true := by
      have := h
      rw [safeList] at this
      simpa using this
    have h1 := dumps_isSome x hsp.1
    have h2 := dumpItems_isSome (y :: rest) hsp.2
    rw [dumpItems]
    rcases hd1 : dumps x with _ | cx
    · rw [hd1] at h1
      cases h1
    · rcases hd2 : dumpItems (y :: rest) with _ | cr
      · rw [hd2] at h2
        cases h2
      · rfl

theorem dumpEntries_isSome : ∀ (kvs : List (String × PyVal)), safeKVs kvs = true →
    (dumpEntries kvs).isSome = true
  | [], _ => rfl
  | [(k, v)], h => by
    have hv : safe_json v = true := by
      have := h
      rw [safeKVs] at this
      exact (by simpa using this : safe_json v = true ∧ safeKVs [] = true).1
    have := dumps_isSome v hv
    rw [dumpEntries]
    rcases hd : dumps v with _ | cv
    · rw [hd] at this
      cases this
    · rfl
  | (k, v) :: e :: rest, h => by
    have hsp : safe_json v = true ∧ safeKVs (e :: rest) = true := by
      have := h
      rw [safeKVs] at this
      simpa using this
    have h1 := dumps_isSome v hsp.1
    have h2 := dumpEntries_isSome (e :: rest) hsp.2
    rw [dumpEntries]
    rcases hd1 : dumps v with _ | cv
    · rw [hd1] at h1
      cases h1
    · rcases hd2 : dumpEntries (e :: rest) with _ | cr
      · rw [hd2] at h2
        cases h2
      · rfl

end

theorem safeList_filter (args : List PyVal) : safeList (args.filter safe_json) = true := by
  induction args with
  | nil => rfl
  | cons a l ih =>
    by_cases ha : safe_json a = true
    · simp [List.filter, ha, safeList, ih]
    · simp only [List.filter]
      simp [Bool.of_not_eq_true ha, ih]

theorem safeKVs_filter (kwargs : List (String × PyVal)) :
    safeKVs (kwargs.filter fun kv => safe_json kv.2) = true := by
  induction kwargs with
  | nil => rfl
  | cons a l ih =>
    by_cases ha : safe_json a.2 = true
    · simp [List.filter, ha, safeKVs, ih]
    · simp only [List.filter]
      simp [Bool.of_not_eq_true ha, ih]

theorem keyVal_safe (args : List PyVal) (kwargs : List (String × PyVal)) :
    safe_json (keyVal args kwargs) = true := by
  show safeKVs _ = true
  rw [safeKVs]
  rw [show safe_json (.dict (kwargs.filter fun kv => safe_json kv.2))
    = safeKVs (kwargs.filter fun kv => safe_json kv.2) from rfl, safeKVs_filter]
  rw [safeKVs]
  rw [show safe_json (.list (args.filter safe_json)) = safeList (args.filter safe_json) from rfl,
    safeList_filter]
  rfl

/-- C7: key derivation never raises — for every argument list and
keyword mapping the hash is produced (`isSome`) — and dropping an
unrepresentable argument leaves the key unchanged, both for a
positional argument and for a keyword-argument value. -/
theorem C7_derive_key_total_and_drop_insensitive :
    (∀ args kwargs, (hash_input args kwargs).isSome = true) ∧
    (∀ pre post x kwargs, safe_json x = false →
      hash_input (pre ++ x :: post) kwargs = hash_input (pre ++ post) kwargs) ∧
    (∀ args pre post k x, safe_json x = false →
      hash_input args (pre ++ (k, x) :: post) = hash_input args (pre ++ post)) := by
  refine ⟨?_, ?_, ?_⟩
  · intro args kwargs
    have h := dumps_isSome (keyVal args kwargs) (keyVal_safe args kwargs)
    rw [hash_input, serialized_input]
    rcases hd : dumps (keyVal args kwargs) with _ | cs
    · rw [hd] at h
      cases h
    · rfl
  · intro pre post x kwargs hx
    have : (pre ++ x :: post).filter safe_json = (pre ++ post).filter safe_json := by
      simp [List.filter_append, List.filter_cons, hx]
    rw [hash_input, serialized_input, keyVal, this, ← keyVal, ← serialized_input, ← hash_input]
  · intro args pre post k x hx
    have : ((pre ++ (k, x) :: post).filter fun kv => safe_json kv.2)
        = ((pre ++ post).filter fun kv => safe_json kv.2) := by
      simp [List.filter_append, List.filter_cons, hx]
    rw [hash_input, serialized_input, keyVal, this, ← keyVal, ← serialized_input, ← hash_input]

theorem dumpItems_cons (x : PyVal) (l : List PyVal) (hl : l ≠ []) :
    dumpItems (x :: l) =
      (dumps x).bind fun cx => (dumpItems l).map fun cr => cx ++ ',' :: ' ' :: cr := by
  cases l with
  | nil => cases hl rfl
  | cons y rest => rfl

theorem dumpItems_congr (a b : PyVal) (hd : dumps a = dumps b) (l1 l2 : List PyVal) :
    dumpItems (l1 ++ a :: l2) = dumpItems (l1 ++ b :: l2) := by
  induction l1 with
  | nil =>
    cases l2 with
    | nil => simpa [dumpItems] using hd
    | cons y rest => simp [dumpItems, hd]
  | cons c l1 ih =>
    rw [List.cons_append, List.cons_append,
      dumpItems_cons c (l1 ++ a :: l2) (by simp),
      dumpItems_cons c (l1 ++ b :: l2) (by simp), ih]

theorem dumps_keyDict_congr (kw : List (String × PyVal)) (A B : List PyVal)
    (hAB : dumpItems A = dumpItems B) :
    dumps (.dict [("kwargs", .dict kw), ("args", .list A)]) =
      dumps (.dict [("kwargs", .dict kw), ("args", .list B)]) := by
  rw [dumps, dumpEntries, dumpEntries, dumps, dumps, hAB]
  rfl

/-- C10: the key cannot distinguish a tuple argument from a list
argument with the same elements — both canonicalize to the same JSON
array, so the derived key is identical. -/
theorem C10_tuple_list_indistinguishable (pre post xs : List PyVal)
    (kwargs : List (String × PyVal)) :
    hash_input (pre ++ .tuple xs :: post) kwargs =
      hash_input (pre ++ .list xs :: post) kwargs := by
  by_cases hs : safeList xs = true
  · have hfil : ∀ v : PyVal, safe_json v = safeList xs → (pre ++ v :: post).filter safe_json
        = pre.filter safe_json ++ v :: post.filter safe_json := by
      intro v hv
      simp [List.filter_append, List.filter_cons, hv, hs]
    have h1 := hfil (.tuple xs) rfl
    have h2 := hfil (.list xs) rfl
    have hitems : dumpItems ((pre ++ PyVal.tuple xs :: post).filter safe_json)
        = dumpItems ((pre ++ PyVal.list xs :: post).filter safe_json) := by
      rw [h1, h2]
      exact dumpItems_congr (.tuple xs) (.list xs) rfl _ _
    rw [hash_input, serialized_input, keyVal]
    rw [hash_input, serialized_input, keyVal]
    rw [dumps_keyDict_congr _ _ _ hitems]
  · have hx : safe_json (.tuple xs) = false := by
      rw [show safe_json (.tuple xs) = safeList xs from rfl]
      simpa using hs
    have hy : safe_json (.list xs) = false := by
      rw [show safe_json (.list xs) = safeList xs from rfl]
      simpa using hs
    have h1 : (pre ++ PyVal.tuple xs :: post).filter safe_json
        = (pre ++ post).filter safe_json := by
      simp [List.filter_append, List.filter_cons, hx]
    have h2 : (pre ++ PyVal.list xs :: post).filter safe_json
        = (pre ++ post).filter safe_json := by
      simp [List.filter_append, List.filter_cons, hy]
    rw [hash_input, serialized_input, keyVal, h1]
    rw [hash_input, serialized_input, keyVal, h2]

/-! ## Unique decoding of the canonical serialization

To show that distinct canonical argument structures serialize to
distinct strings (positional-order sensitivity, keyword-order
sensitivity), we exhibit a parser and prove a round-trip law: parsing
`dumps v ++ r` yields the canonical form of `v` and the untouched
remainder `r`.  The canonical form collapses exactly the identifications
the serialization makes: tuples and lists both become lists, and ints
and DataFrame hashes become number literals (`float` carries the
literal). -/

def numStart (c : Char) : Bool := c.isDigit || c = '-'

def numBody (c : Char) : Bool :=
  c.isDigit || c = '-' || c = '+' || c = '.' || c = 'e' || c = 'E'

/-- Printable ASCII that `json.dumps` emits verbatim inside a string
literal (no escaping needed). -/
def plainChar (c : Char) : Bool :=
  (32 ≤ c.toNat && c.toNat ≤ 126) && !(c = '"' : Bool) && !(c = '\\' : Bool)

def numStop : List Char → Bool
  | [] => true
  | c :: _ => !(numBody c)

mutual

/-- Well-formedness for the round-trip argument: float literals have
Python number shape and strings need no escaping. -/
def wfVal : PyVal → Bool
  | .none => true
  | .bool _ => true
  | .int _ => true
  | .float r =>
    (match r.data with
     | [] => false
     | c :: _ => numStart c) && r.data.all numBody
  | .str s => s.data.all plainChar
  | .tuple xs => wfList xs
  | .list xs => wfList xs
  | .dict kvs => wfKVs kvs
  | .df _ => true
  | .obj => false

def wfList : List PyVal → Bool
  | [] => true
  | x :: xs => wfVal x && wfList xs

def wfKVs : List (String × PyVal) → Bool
  | [] => true
  | (k, v) :: kvs => k.data.all plainChar && wfVal v && wfKVs kvs

end

mutual

/-- The canonical form of a value: everything the serialization cannot
distinguish is collapsed (tuple/list to list, int/DataFrame-hash to
their number literal). -/
def canonVal : PyVal → PyVal
  | .none => .none
  | .bool b => .bool b
  | .int n => .float ⟨intChars n⟩
  | .float r => .float r
  | .str s => .str s
  | .tuple xs => .list (canonList xs)
  | .list xs => .list (canonList xs)
  | .dict kvs => .dict (canonKVs kvs)
  | .df h => .float ⟨intChars h⟩
  | .obj => .obj

def canonList : List PyVal → List PyVal
  | [] => []
  | x :: xs => canonVal x :: canonList xs

def canonKVs : List (String × PyVal) → List (String × PyVal)
  | [] => []
  | (k, v) :: kvs => (k, canonVal v) :: canonKVs kvs

end

mutual

def sizeV : PyVal → Nat
  | .tuple xs => sizeL xs + 1
  | .list xs => sizeL xs + 1
  | .dict kvs => sizeK kvs + 1
  | _ => 1

def sizeL : List PyVal → Nat
  | [] => 1
  | x :: xs => sizeV x + sizeL xs + 1

def sizeK : List (String × PyVal) → Nat
  | [] => 1
  | (_, v) :: kvs => sizeV v + sizeK kvs + 1

end

mutual

/-- Fuel-indexed parser for the canonical serialization. -/
def parseVal : Nat → List Char → Option (PyVal × List Char)
  | 0, _ => Option.none
  | fuel+1, cs =>
    match cs with
    | [] => Option.none
    | c :: rest =>
      if numStart c then
        some (.float ⟨cs.takeWhile numBody⟩, cs.dropWhile numBody)
      else if c = '"' then
        if (rest.dropWhile (· != '"')).head? = some '"' then
          some (.str ⟨rest.takeWhile (· != '"')⟩, (rest.dropWhile (· != '"')).tail)
        else Option.none
      else if c = '[' then
        if rest.head? = some ']' then some (.list [], rest.tail)
        else (parseItems fuel rest).map fun p => (.list p.1, p.2)
      else if c = '{' then
        if rest.head? = some '}' then some (.dict [], rest.tail)
        else (parseEntries fuel rest).map fun p => (.dict p.1, p.2)
      else if cs.take 4 = ['n', 'u', 'l', 'l'] then some (.none, cs.drop 4)
      else if cs.take 4 = ['t', 'r', 'u', 'e'] then some (.bool true, cs.drop 4)
      else if cs.take 5 = ['f', 'a', 'l', 's', 'e'] then some (.bool false, cs.drop 5)
      else Option.none

/-- Parse `", "`-separated array elements up to and including the
closing bracket. -/
def parseItems : Nat → List Char → Option (List PyVal × List Char)
  | 0, _ => Option.none
  | fuel+1, cs =>
    (parseVal fuel cs).bind fun vr =>
      if vr.2.take 2 = [',', ' '] then
        (parseItems fuel (vr.2.drop 2)).map fun p => (vr.1 :: p.1, p.2)
      else if vr.2.head? = some ']' then some ([vr.1], vr.2.tail)
      else Option.none

/-- Parse `", "`-separated `"key": value` entries up to and including
the closing brace. -/
def parseEntries : Nat → List Char → Option (List (String × PyVal) × List Char)
  | 0, _ => Option.none
  | fuel+1, cs =>
    if cs.head? = some '"' then
      if ((cs.tail).dropWhile (· != '"')).take 3 = ['"', ':', ' '] then
        (parseVal fuel (((cs.tail).dropWhile (· != '"')).drop 3)).bind fun vr =>
          if vr.2.take 2 = [',', ' '] then
            (parseEntries fuel (vr.2.drop 2)).map fun p =>
              ((⟨(cs.tail).takeWhile (· != '"')⟩, vr.1) :: p.1, p.2)
          else if vr.2.head? = some '}' then
            some ([(⟨(cs.tail).takeWhile (· != '"')⟩, vr.1)], vr.2.tail)
          else Option.none
      else Option.none
    else Option.none

end

theorem escChar_plain (c : Char) (h : plainChar c = true) : escChar c = [c] := by
  simp only [plainChar, Bool.and_eq_true, Bool.not_eq_true', decide_eq_false_iff_not,
    decide_eq_true_eq] at h
  obtain ⟨⟨⟨h1, h2⟩, h3⟩, h4⟩ := h
  rw [escChar, if_neg h3, if_neg h4, if_pos (by simp [h1, h2])]

theorem escChars_plain (cs : List Char) (h : cs.all plainChar = true) : escChars cs = cs := by
  induction cs with
  | nil => rfl
  | cons c cs ih =>
    simp only [List.all_cons, Bool.and_eq_true] at h
    show escChar c ++ escChars cs = c :: cs
    rw [escChar_plain c h.1, ih h.2]
    rfl

theorem natChars_digit : ∀ (fuel n : Nat), ∀ c ∈ natChars fuel n, c.isDigit = true := by
  intro fuel
  induction fuel with
  | zero => intro n c hc; cases hc
  | succ fuel ih =>
    intro n c hc
    rw [natChars] at hc
    by_cases hn : n < 10
    · rw [if_pos hn] at hc
      simp only [List.mem_singleton] at hc
      subst hc
      interval_cases n <;> decide
    · rw [if_neg hn] at hc
      rcases List.mem_append.mp hc with h | h
      · exact ih (n / 10) c h
      · simp only [List.mem_singleton] at h
        subst h
        have : n % 10 < 10 := Nat.mod_lt n (by omega)
        interval_cases hm : (n % 10) <;> simp_all <;> decide

theorem natChars_ne_nil (fuel n : Nat) : natChars (fuel + 1) n ≠ [] := by
  rw [natChars]
  by_cases hn : n < 10
  · simp [hn]
  · simp [hn]

theorem digit_numBody {c : Char} (h : c.isDigit = true) : numBody c = true := by
  simp [numBody, h]

theorem digit_numStart {c : Char} (h : c.isDigit = true) : numStart c = true := by
  simp [numStart, h]

theorem intChars_body (n : Int) : ∀ c ∈ intChars n, numBody c = true := by
  intro c hc
  rw [intChars] at hc
  by_cases hn : n < 0
  · rw [if_pos hn] at hc
    rcases List.mem_cons.mp hc with h | h
    · subst h
      decide
    · exact digit_numBody (natChars_digit _ _ c h)
  · rw [if_neg hn] at hc
    exact digit_numBody (natChars_digit _ _ c hc)

theorem intChars_shape (n : Int) :
    ∃ c cs, intChars n = c :: cs ∧ numStart c = true := by
  rw [intChars]
  by_cases hn : n < 0
  · rw [if_pos hn]
    exact ⟨'-', _, rfl, by decide⟩
  · rw [if_neg hn]
    rcases hne : natChars (n.natAbs + 1) n.natAbs with _ | ⟨c, cs⟩
    · exact absurd hne (natChars_ne_nil _ _)
    · refine ⟨c, cs, rfl, digit_numStart (natChars_digit (n.natAbs + 1) n.natAbs c ?_)⟩
      rw [hne]
      simp

theorem numStop_iff (r : List Char) (h : numStop r = true) :
    r = [] ∨ ∃ c cs, r = c :: cs ∧ numBody c = false := by
  cases r with
  | nil => exact Or.inl rfl
  | cons c cs =>
    refine Or.inr ⟨c, cs, rfl, ?_⟩
    simpa [numStop] using h

def headStart (c : Char) : Bool :=
  numStart c || (c = '"') || (c = '[') || (c = '{') || (c = 'n') || (c = 't') || (c = 'f')

theorem dumps_head (v : PyVal) (cs : List Char) (hwf : wfVal v = true)
    (hd : dumps v = some cs) : ∃ c cs', cs = c :: cs' ∧ headStart c = true := by
  cases v with
  | none =>
    rw [dumps] at hd
    injection hd with hd
    exact ⟨_, _, hd.symm, by decide⟩
  | bool b =>
    cases b <;> rw [dumps] at hd <;> injection hd with hd <;>
      exact ⟨_, _, hd.symm, by decide⟩
  | int n =>
    rw [dumps] at hd
    injection hd with hd
    obtain ⟨c, cs0, hc, hstart⟩ := intChars_shape n
    exact ⟨c, cs0, by rw [← hd, hc], by simp [headStart, hstart]⟩
  | float r =>
    rw [dumps] at hd
    injection hd with hd
    rw [wfVal] at hwf
    simp only [Bool.and_eq_true] at hwf
    rcases hr : r.data with _ | ⟨c, cs0⟩
    · rw [hr] at hwf
      simp at hwf
    · rw [hr] at hwf
      have h1 : numStart c = true := by simpa using hwf.1
      exact ⟨c, cs0, by rw [← hd, hr], by simp [headStart, h1]⟩
  | str s =>
    rw [dumps] at hd
    injection hd with hd
    exact ⟨'"', _, hd.symm, by decide⟩
  | tuple xs =>
    rw [dumps] at hd
    rcases hdi : dumpItems xs with _ | l <;> rw [hdi] at hd
    · cases hd
    · injection hd with hd
      exact ⟨'[', _, hd.symm, by decide⟩
  | list xs =>
    rw [dumps] at hd
    rcases hdi : dumpItems xs with _ | l <;> rw [hdi] at hd
    · cases hd
    · injection hd with hd
      exact ⟨'[', _, hd.symm, by decide⟩
  | dict kvs =>
    rw [dumps] at hd
    rcases hdi : dumpEntries kvs with _ | l <;> rw [hdi] at hd
    · cases hd
    · injection hd with hd
      exact ⟨'{', _, hd.symm, by decide⟩
  | df h =>
    rw [dumps] at hd
    injection hd with hd
    obtain ⟨c, cs0, hc, hstart⟩ := intChars_shape h
    exact ⟨c, cs0, by rw [← hd, hc], by simp [headStart, hstart]⟩
  | obj => cases hwf

theorem dumpItems_head (xs : List PyVal) (l : List Char) (hne : xs ≠ [])
    (hwf : wfList xs = true) (hd : dumpItems xs = some l) :
    ∃ c l', l = c :: l' ∧ headStart c = true := by
  cases xs with
  | nil => cases hne rfl
  | cons x xs =>
    have hwx : wfVal x = true := by
      rw [wfList] at hwf
      simp only [Bool.and_eq_true] at hwf
      exact hwf.1
    cases xs with
    | nil =>
      rw [dumpItems] at hd
      exact dumps_head x l hwx hd
    | cons y rest =>
      rw [dumpItems] at hd
      rcases hcx : dumps x with _ | cx <;> rw [hcx] at hd
      · cases hd
      · rcases hcr : dumpItems (y :: rest) with _ | cr <;> rw [hcr] at hd
        · cases hd
        · injection hd with hd
          obtain ⟨c, cs', hc, hs⟩ := dumps_head x cx hwx hcx
          exact ⟨c, cs' ++ ',' :: ' ' :: cr, by rw [← hd, hc]; rfl, hs⟩

theorem dumpEntries_head (kvs : List (String × PyVal)) (l : List Char) (hne : kvs ≠ [])
    (hd : dumpEntries kvs = some l) : ∃ l', l = '"' :: l' := by
  cases kvs with
  | nil => cases hne rfl
  | cons e kvs =>
    obtain ⟨k, v⟩ := e
    cases kvs with
    | nil =>
      rw [dumpEntries] at hd
      rcases hcv : dumps v with _ | cv <;> rw [hcv] at hd
      · cases hd
      · injection hd with hd
        exact ⟨_, hd.symm⟩
    | cons e2 rest =>
      rw [dumpEntries] at hd
      rcases hcv : dumps v with _ | cv <;> rw [hcv] at hd
      · cases hd
      · rcases hcr : dumpEntries (e2 :: rest) with _ | cr <;> rw [hcr] at hd
        · cases hd
        · injection hd with hd
          exact ⟨_, hd.symm⟩

theorem headStart_ne_rbracket {c : Char} (h : headStart c = true) : ¬(c = ']') := by
  intro rfl_h
  subst rfl_h
  exact absurd h (by decide)

theorem headStart_ne_rbrace {c : Char} (h : headStart c = true) : ¬(c = '}') := by
  intro rfl_h
  subst rfl_h
  exact absurd h (by decide)

theorem plain_ne_quote {c : Char} (h : plainChar c = true) : (c != '"') = true := by
  simp only [plainChar, Bool.and_eq_true, Bool.not_eq_true', decide_eq_false_iff_not] at h
  simpa using h.1.2

theorem sizeV_pos (v : PyVal) : 1 ≤ sizeV v := by
  cases v <;> simp [sizeV]

theorem sizeL_pos (xs : List PyVal) : 1 ≤ sizeL xs := by
  cases xs with
  | nil => simp [sizeL]
  | cons x xs => simp [sizeL]

theorem sizeK_pos (kvs : List (String × PyVal)) : 1 ≤ sizeK kvs := by
  cases kvs with
  | nil => simp [sizeK]
  | cons e kvs => obtain ⟨k, v⟩ := e; simp [sizeK]


mutual

/-- Parsing the serialization of a safe, well-formed value recovers its
canonical form and leaves the remainder untouched. -/
theorem rt_val : ∀ (fuel : Nat) (v : PyVal) (cs r : List Char),
    sizeV v ≤ fuel → safe_json v = true → wfVal v = true → dumps v = some cs →
    numStop r = true → parseVal fuel (cs ++ r) = some (canonVal v, r)
  | 0, v, _, _, hsz, _, _, _, _ => absurd hsz (by have := sizeV_pos v; omega)
  | fuel+1, .none, cs, r, _, _, _, hd, _ => by
    rw [dumps] at hd
    injection hd with hd
    subst hd
    rw [show (['n', 'u', 'l', 'l'] : List Char) ++ r = 'n' :: 'u' :: 'l' :: 'l' :: r from rfl]
    rw [parseVal]
    simp +decide [canonVal]
  | fuel+1, .bool true, cs, r, _, _, _, hd, _ => by
    rw [dumps] at hd
    injection hd with hd
    subst hd
    rw [show (['t', 'r', 'u', 'e'] : List Char) ++ r = 't' :: 'r' :: 'u' :: 'e' :: r from rfl]
    rw [parseVal]
    simp +decide [canonVal]
  | fuel+1, .bool false, cs, r, _, _, _, hd, _ => by
    rw [dumps] at hd
    injection hd with hd
    subst hd
    rw [show (['f', 'a', 'l', 's', 'e'] : List Char) ++ r
      = 'f' :: 'a' :: 'l' :: 's' :: 'e' :: r from rfl]
    rw [parseVal]
    simp +decide [canonVal]
  | fuel+1, .int n, cs, r, _, _, _, hd, hstop => by
    rw [dumps] at hd
    injection hd with hd
    subst hd
    obtain ⟨c, cs0, hc, hstart⟩ := intChars_shape n
    have hspan := takeWhile_append_stop (p := numBody) (intChars n) r
      (intChars_body n) (numStop_iff r hstop)
    rw [hc] at hspan
    rw [hc]
    simp only [List.cons_append] at hspan ⊢
    rw [parseVal]
    rw [if_pos hstart]
    rw [hspan.1, hspan.2]
    rw [canonVal, hc]
  | fuel+1, .float r0, cs, r, _, _, hwf, hd, hstop => by
    rw [dumps] at hd
    injection hd with hd
    subst hd
    rw [wfVal] at hwf
    simp only [Bool.and_eq_true] at hwf
    rcases hr0 : r0.data with _ | ⟨c, cs0⟩
    · rw [hr0] at hwf
      simp at hwf
    · rw [hr0] at hwf
      have hstart : numStart c = true := by simpa using hwf.1
      have hbody : ∀ d ∈ (c :: cs0), numBody d = true := by
        intro d hdm
        exact List.all_eq_true.mp hwf.2 d hdm
      have hspan := takeWhile_append_stop (p := numBody) (c :: cs0) r hbody
        (numStop_iff r hstop)
      simp only [List.cons_append] at hspan ⊢
      rw [parseVal]
      rw [if_pos hstart]
      rw [hspan.1, hspan.2]
      rw [canonVal]
      rw [show (⟨c :: cs0⟩ : String) = r0 from by rw [← hr0]]
  | fuel+1, .str s, cs, r, _, _, hwf, hd, _ => by
    rw [dumps] at hd
    injection hd with hd
    subst hd
    rw [wfVal] at hwf
    rw [escChars_plain s.data hwf]
    have hplain : ∀ d ∈ s.data, (d != '"') = true := by
      intro d hdm
      exact plain_ne_quote (List.all_eq_true.mp hwf d hdm)
    have hspan := takeWhile_append_stop (p := (· != '"')) s.data ('"' :: r) hplain
      (Or.inr ⟨'"', r, rfl, by decide⟩)
    rw [show ('"' :: s.data ++ ['"']) ++ r = '"' :: (s.data ++ '"' :: r) from by simp]
    rw [parseVal]
    rw [if_neg (by decide), if_pos rfl]
    rw [hspan.2, hspan.1]
    simp only [List.head?_cons, List.tail_cons, List.take_succ_cons, List.take_zero,
      List.drop_succ_cons, List.drop_zero]
    rw [if_pos trivial]
    rw [canonVal]
  | fuel+1, .tuple xs, cs, r, hsz, hsafe, hwf, hd, _ => by
    rw [dumps] at hd
    rcases hdi : dumpItems xs with _ | l <;> rw [hdi] at hd
    · cases hd
    · injection hd with hd
      subst hd
      rw [sizeV] at hsz
      rw [safe_json] at hsafe
      rw [wfVal] at hwf
      cases xs with
      | nil =>
        rw [dumpItems] at hdi
        injection hdi with hdi
        subst hdi
        rw [show ('[' :: ([] : List Char) ++ [']']) ++ r = '[' :: ']' :: r from rfl]
        rw [parseVal]
        simp +decide [canonVal, canonList]
      | cons x xs' =>
        obtain ⟨c, l', hl, hs⟩ := dumpItems_head (x :: xs') l (by simp) hwf hdi
        subst hl
        rw [show ('[' :: (c :: l') ++ [']']) ++ r = '[' :: ((c :: l') ++ ']' :: r) from by simp]
        rw [parseVal]
        rw [if_neg (by decide), if_neg (by decide), if_pos rfl]
        rw [if_neg (by
          simp only [List.cons_append, List.head?_cons]
          intro hcon
          injection hcon with hcon
          exact headStart_ne_rbracket hs hcon)]
        rw [rt_items fuel (x :: xs') (c :: l') r (by omega) hsafe hwf (by simp) hdi]
        rw [Option.map_some']
        rw [canonVal]
  | fuel+1, .list xs, cs, r, hsz, hsafe, hwf, hd, _ => by
    rw [dumps] at hd
    rcases hdi : dumpItems xs with _ | l <;> rw [hdi] at hd
    · cases hd
    · injection hd with hd
      subst hd
      rw [sizeV] at hsz
      rw [safe_json] at hsafe
      rw [wfVal] at hwf
      cases xs with
      | nil =>
        rw [dumpItems] at hdi
        injection hdi with hdi
        subst hdi
        rw [show ('[' :: ([] : List Char) ++ [']']) ++ r = '[' :: ']' :: r from rfl]
        rw [parseVal]
        simp +decide [canonVal, canonList]
      | cons x xs' =>
        obtain ⟨c, l', hl, hs⟩ := dumpItems_head (x :: xs') l (by simp) hwf hdi
        subst hl
        rw [show ('[' :: (c :: l') ++ [']']) ++ r = '[' :: ((c :: l') ++ ']' :: r) from by simp]
        rw [parseVal]
        rw [if_neg (by decide), if_neg (by decide), if_pos rfl]
        rw [if_neg (by
          simp only [List.cons_append, List.head?_cons]
          intro hcon
          injection hcon with hcon
          exact headStart_ne_rbracket hs hcon)]
        rw [rt_items fuel (x :: xs') (c :: l') r (by omega) hsafe hwf (by simp) hdi]
        rw [Option.map_some']
        rw [canonVal]
  | fuel+1, .dict kvs, cs, r, hsz, hsafe, hwf, hd, _ => by
    rw [dumps] at hd
    rcases hdi : dumpEntries kvs with _ | l <;> rw [hdi] at hd
    · cases hd
    · injection hd with hd
      subst hd
      rw [sizeV] at hsz
      rw [safe_json] at hsafe
      rw [wfVal] at hwf
      cases kvs with
      | nil =>
        rw [dumpEntries] at hdi
        injection hdi with hdi
        subst hdi
        rw [show ('{' :: ([] : List Char) ++ ['}']) ++ r = '{' :: '}' :: r from rfl]
        rw [parseVal]
        simp +decide [canonVal, canonKVs]
      | cons e kvs' =>
        obtain ⟨l', hl⟩ := dumpEntries_head (e :: kvs') l (by simp) hdi
        subst hl
        rw [show ('{' :: ('"' :: l') ++ ['}']) ++ r = '{' :: (('"' :: l') ++ '}' :: r)
          from by simp]
        rw [parseVal]
        rw [if_neg (by decide), if_neg (by decide), if_neg (by decide), if_pos rfl]
        rw [if_neg (by
          simp only [List.cons_append, List.head?_cons]
          intro hcon
          injection hcon with hcon
          cases hcon)]
        rw [rt_entries fuel (e :: kvs') ('"' :: l') r (by omega) hsafe hwf (by simp) hdi]
        rw [Option.map_some']
        rw [canonVal]
  | fuel+1, .df h, cs, r, _, _, _, hd, hstop => by
    rw [dumps] at hd
    injection hd with hd
    subst hd
    obtain ⟨c, cs0, hc, hstart⟩ := intChars_shape h
    have hspan := takeWhile_append_stop (p := numBody) (intChars h) r
      (intChars_body h) (numStop_iff r hstop)
    rw [hc] at hspan
    rw [hc]
    simp only [List.cons_append] at hspan ⊢
    rw [parseVal]
    rw [if_pos hstart]
    rw [hspan.1, hspan.2]
    rw [canonVal, hc]
  | _+1, .obj, _, _, _, hsafe, _, _, _ => by cases hsafe

theorem rt_items : ∀ (fuel : Nat) (xs : List PyVal) (cs r : List Char),
    sizeL xs ≤ fuel → safeList xs = true → wfList xs = true → xs ≠ [] →
    dumpItems xs = some cs → parseItems fuel (cs ++ ']' :: r) = some (canonList xs, r)
  | 0, xs, _, _, hsz, _, _, _, _ => absurd hsz (by have := sizeL_pos xs; omega)
  | _+1, [], _, _, _, _, _, hne, _ => absurd rfl hne
  | fuel+1, [x], cs, r, hsz, hsafe, hwf, _, hd => by
    rw [dumpItems] at hd
    rw [sizeL, sizeL] at hsz
    have hsx : safe_json x = true := by
      rw [safeList] at hsafe
      simp only [Bool.and_eq_true] at hsafe
      exact hsafe.1
    have hwx : wfVal x = true := by
      rw [wfList] at hwf
      simp only [Bool.and_eq_true] at hwf
      exact hwf.1
    rw [parseItems]
    rw [rt_val fuel x cs (']' :: r) (by omega) hsx hwx hd rfl]
    rw [Option.some_bind]
    dsimp only
    rw [if_neg (by simp)]
    simp only [List.head?_cons, List.tail_cons, List.take_succ_cons, List.take_zero,
      List.drop_succ_cons, List.drop_zero]
    rw [if_pos trivial]
    rw [canonList, canonList]
  | fuel+1, x :: y :: rest, cs, r, hsz, hsafe, hwf, _, hd => by
    rw [dumpItems] at hd
    rcases hcx : dumps x with _ | cx <;> rw [hcx] at hd
    · cases hd
    · rcases hcr : dumpItems (y :: rest) with _ | cr <;> rw [hcr] at hd
      · cases hd
      · injection hd with hd
        subst hd
        rw [sizeL] at hsz
        have hsx : safe_json x = true ∧ safeList (y :: rest) = true := by
          rw [safeList] at hsafe
          simpa using hsafe
        have hwx : wfVal x = true ∧ wfList (y :: rest) = true := by
          rw [wfList] at hwf
          simpa using hwf
        rw [show (cx ++ ',' :: ' ' :: cr) ++ ']' :: r
          = cx ++ ',' :: ' ' :: (cr ++ ']' :: r) from by simp]
        rw [parseItems]
        rw [rt_val fuel x cx (',' :: ' ' :: (cr ++ ']' :: r)) (by omega) hsx.1 hwx.1 hcx rfl]
        rw [Option.some_bind]
        dsimp only
        simp only [List.head?_cons, List.tail_cons, List.take_succ_cons, List.take_zero,
        List.drop_succ_cons, List.drop_zero]
        rw [if_pos trivial]
        rw [rt_items fuel (y :: rest) cr r (by omega) hsx.2 hwx.2 (by simp) hcr]
        rw [Option.map_some']
        rfl

theorem rt_entries : ∀ (fuel : Nat) (kvs : List (String × PyVal)) (cs r : List Char),
    sizeK kvs ≤ fuel → safeKVs kvs = true → wfKVs kvs = true → kvs ≠ [] →
    dumpEntries kvs = some cs → parseEntries fuel (cs ++ '}' :: r) = some (canonKVs kvs, r)
  | 0, kvs, _, _, hsz, _, _, _, _ => absurd hsz (by have := sizeK_pos kvs; omega)
  | _+1, [], _, _, _, _, _, hne, _ => absurd rfl hne
  | fuel+1, [(k, v)], cs, r, hsz, hsafe, hwf, _, hd => by
    rw [dumpEntries] at hd
    rcases hcv : dumps v with _ | cv <;> rw [hcv] at hd
    · cases hd
    · injection hd with hd
      subst hd
      rw [sizeK, sizeK] at hsz
      have hsv : safe_json v = true := by
        rw [safeKVs] at hsafe
        simp only [Bool.and_eq_true] at hsafe
        exact hsafe.1
      have hwv : k.data.all plainChar = true ∧ wfVal v = true := by
        rw [wfKVs] at hwf
        simp only [Bool.and_eq_true] at hwf
        exact hwf.1
      rw [escChars_plain k.data hwv.1]
      have hplain : ∀ d ∈ k.data, (d != '"') = true := by
        intro d hdm
        exact plain_ne_quote (List.all_eq_true.mp hwv.1 d hdm)
      have hspan := takeWhile_append_stop (p := (· != '"')) k.data
        ('"' :: ':' :: ' ' :: (cv ++ '}' :: r)) hplain
        (Or.inr ⟨'"', _, rfl, by decide⟩)
      rw [show ('"' :: k.data ++ '"' :: ':' :: ' ' :: cv) ++ '}' :: r
        = '"' :: (k.data ++ '"' :: ':' :: ' ' :: (cv ++ '}' :: r)) from by simp]
      rw [parseEntries]
      simp only [List.head?_cons, List.tail_cons, List.take_succ_cons, List.take_zero,
      List.drop_succ_cons, List.drop_zero]
      rw [if_pos trivial]
      rw [hspan.2, hspan.1]
      simp only [List.head?_cons, List.tail_cons, List.take_succ_cons, List.take_zero,
      List.drop_succ_cons, List.drop_zero]
      rw [if_pos trivial]
      rw [rt_val fuel v cv ('}' :: r) (by omega) hsv hwv.2 hcv rfl]
      rw [Option.some_bind]
      dsimp only
      rw [if_neg (by simp)]
      simp only [List.head?_cons, List.tail_cons, List.take_succ_cons, List.take_zero,
      List.drop_succ_cons, List.drop_zero]
      rw [if_pos trivial]
      rw [canonKVs, canonKVs]
  | fuel+1, (k, v) :: e2 :: rest, cs, r, hsz, hsafe, hwf, _, hd => by
    rw [dumpEntries] at hd
    rcases hcv : dumps v with _ | cv <;> rw [hcv] at hd
    · cases hd
    · rcases hcr : dumpEntries (e2 :: rest) with _ | cr <;> rw [hcr] at hd
      · cases hd
      · injection hd with hd
        subst hd
        rw [sizeK] at hsz
        have hsv : safe_json v = true ∧ safeKVs (e2 :: rest) = true := by
          rw [safeKVs] at hsafe
          simpa using hsafe
        have hwv : (k.data.all plainChar = true ∧ wfVal v = true)
            ∧ wfKVs (e2 :: rest) = true := by
          rw [wfKVs] at hwf
          simpa using hwf
        rw [escChars_plain k.data hwv.1.1]
        have hplain : ∀ d ∈ k.data, (d != '"') = true := by
          intro d hdm
          exact plain_ne_quote (List.all_eq_true.mp hwv.1.1 d hdm)
        have hspan := takeWhile_append_stop (p := (· != '"')) k.data
          ('"' :: ':' :: ' ' :: (cv ++ ',' :: ' ' :: (cr ++ '}' :: r))) hplain
          (Or.inr ⟨'"', _, rfl, by decide⟩)
        rw [show (('"' :: k.data ++ '"' :: ':' :: ' ' :: cv) ++ ',' :: ' ' :: cr) ++ '}' :: r
          = '"' :: (k.data ++ '"' :: ':' :: ' ' :: (cv ++ ',' :: ' ' :: (cr ++ '}' :: r)))
          from by simp]
        rw [parseEntries]
        simp only [List.head?_cons, List.tail_cons, List.take_succ_cons, List.take_zero,
        List.drop_succ_cons, List.drop_zero]
        rw [if_pos trivial]
        rw [hspan.2, hspan.1]
        simp only [List.head?_cons, List.tail_cons, List.take_succ_cons, List.take_zero,
        List.drop_succ_cons, List.drop_zero]
        rw [if_pos trivial]
        rw [rt_val fuel v cv (',' :: ' ' :: (cr ++ '}' :: r)) (by omega) hsv.1 hwv.1.2 hcv rfl]
        rw [Option.some_bind]
        dsimp only
        simp only [List.head?_cons, List.tail_cons, List.take_succ_cons, List.take_zero,
        List.drop_succ_cons, List.drop_zero]
        rw [if_pos trivial]
        rw [rt_entries fuel (e2 :: rest) cr r (by omega) hsv.2 hwv.2 (by simp) hcr]
        rw [Option.map_some']
        rfl

end

/-- Two safe, well-formed values with the same serialization have the
same canonical form (unique decoding). -/
theorem dumps_canon_inj (v w : PyVal) (hsv : safe_json v = true) (hwv : wfVal v = true)
    (hsw : safe_json w = true) (hww : wfVal w = true) (h : dumps v = dumps w) :
    canonVal v = canonVal w := by
  rcases hdv : dumps v with _ | cs
  · have hx := dumps_isSome v hsv
    rw [hdv] at hx
    cases hx
  · have hdw : dumps w = some cs := by rw [← h, hdv]
    have h1 := rt_val (max (sizeV v) (sizeV w)) v cs [] (le_max_left _ _) hsv hwv hdv rfl
    have h2 := rt_val (max (sizeV v) (sizeV w)) w cs [] (le_max_right _ _) hsw hww hdw rfl
    rw [h1] at h2
    injection h2 with h2
    exact congrArg Prod.fst h2

theorem filter_of_safeList (xs : List PyVal) (h : safeList xs = true) :
    xs.filter safe_json = xs := by
  induction xs with
  | nil => rfl
  | cons x xs ih =>
    rw [safeList] at h
    simp only [Bool.and_eq_true] at h
    simp [List.filter, h.1, ih h.2]

theorem filter_of_safeKVs (kvs : List (String × PyVal)) (h : safeKVs kvs = true) :
    (kvs.filter fun kv => safe_json kv.2) = kvs := by
  induction kvs with
  | nil => rfl
  | cons e kvs ih =>
    obtain ⟨k, v⟩ := e
    rw [safeKVs] at h
    simp only [Bool.and_eq_true] at h
    simp [List.filter, h.1, ih h.2]

theorem keyVal_safe_unfiltered (args : List PyVal) (kwargs : List (String × PyVal))
    (hsa : safeList args = true) (hsk : safeKVs kwargs = true) :
    safe_json (.dict [("kwargs", .dict kwargs), ("args", .list args)]) = true := by
  rw [show safe_json (.dict [("kwargs", .dict kwargs), ("args", .list args)])
    = safeKVs [("kwargs", .dict kwargs), ("args", .list args)] from rfl]
  rw [safeKVs, safeKVs, safeKVs]
  rw [show safe_json (.dict kwargs) = safeKVs kwargs from rfl,
    show safe_json (.list args) = safeList args from rfl, hsa, hsk]
  decide

/-- Unique decoding of the full canonical `{'kwargs': ..., 'args': ...}`
structure: equal serialized inputs force equal canonical positional
arguments AND equal canonical keyword lists (insertion order included). -/
theorem serialized_input_inj (args args' : List PyVal)
    (kwargs kwargs' : List (String × PyVal))
    (hsa : safeList args = true) (hwa : wfList args = true)
    (hsa' : safeList args' = true) (hwa' : wfList args' = true)
    (hsk : safeKVs kwargs = true) (hwk : wfKVs kwargs = true)
    (hsk' : safeKVs kwargs' = true) (hwk' : wfKVs kwargs' = true)
    (h : serialized_input args kwargs = serialized_input args' kwargs') :
    canonList args = canonList args' ∧ canonKVs kwargs = canonKVs kwargs' := by
  rw [serialized_input, serialized_input, keyVal, keyVal,
    filter_of_safeList args hsa, filter_of_safeList args' hsa',
    filter_of_safeKVs kwargs hsk, filter_of_safeKVs kwargs' hsk'] at h
  have hwf : ∀ (a : List PyVal) (kw : List (String × PyVal)),
      wfList a = true → wfKVs kw = true →
      wfVal (.dict [("kwargs", .dict kw), ("args", .list a)]) = true := by
    intro a kw hwa0 hwk0
    rw [show wfVal (.dict [("kwargs", .dict kw), ("args", .list a)])
      = wfKVs [("kwargs", .dict kw), ("args", .list a)] from rfl]
    rw [wfKVs, wfKVs, wfKVs]
    rw [show wfVal (.dict kw) = wfKVs kw from rfl,
      show wfVal (.list a) = wfList a from rfl, hwa0, hwk0]
    decide
  have hcanon := dumps_canon_inj _ _
    (keyVal_safe_unfiltered args kwargs hsa hsk)
    (hwf args kwargs hwa hwk)
    (keyVal_safe_unfiltered args' kwargs' hsa' hsk')
    (hwf args' kwargs' hwa' hwk') h
  rw [show ∀ (a : List PyVal) (kw : List (String × PyVal)),
      canonVal (.dict [("kwargs", .dict kw), ("args", .list a)])
      = .dict [("kwargs", .dict (canonKVs kw)), ("args", .list (canonList a))]
    from fun a kw => rfl, show ∀ (a : List PyVal) (kw : List (String × PyVal)),
      canonVal (.dict [("kwargs", .dict kw), ("args", .list a)])
      = .dict [("kwargs", .dict (canonKVs kw)), ("args", .list (canonList a))]
    from fun a kw => rfl] at hcanon
  injection hcanon with h1
  simp only [List.cons.injEq, Prod.mk.injEq] at h1
  obtain ⟨⟨_, hkw⟩, ⟨_, hargs⟩, _⟩ := h1
  constructor
  · injection hargs
  · injection hkw

/-- C8: positional argument order affects the key.  Argument lists with
distinct canonical forms (e.g. the same safely-representable elements in
two orders that are not element-wise equal) produce distinct serialized
canonical structures — so their CacheKeys differ unless SHA-256 itself
collides — and the spec's own instance `derive_key(f,(1,2),{}) ≠
derive_key(f,(2,1),{})` holds at the level of the actual digests. -/
theorem C8_positional_order_sensitivity :
    (∀ (args args' : List PyVal) (kwargs : List (String × PyVal)),
      safeList args = true → wfList args = true →
      safeList args' = true → wfList args' = true →
      safeKVs kwargs = true → wfKVs kwargs = true →
      canonList args ≠ canonList args' →
      serialized_input args kwargs ≠ serialized_input args' kwargs) ∧
    hash_input [.int 1, .int 2] [] ≠ hash_input [.int 2, .int 1] [] := by
  constructor
  · intro args args' kwargs hsa hwa hsa' hwa' hsk hwk hne h
    exact hne (serialized_input_inj args args' kwargs kwargs
      hsa hwa hsa' hwa' hsk hwk hsk hwk h).1
  · decide

/-- C2 counterexample: the code serializes keyword arguments in
insertion order (`json.dumps` without `sort_keys`), so the spec's
example pair of calls yields two DIFFERENT CacheKeys: the claimed
keyword-order invariance fails on the code. -/
theorem C2_counterexample :
    hash_input [] [("a", .int 1), ("b", .int 2)]
      ≠ hash_input [] [("b", .int 2), ("a", .int 1)] := by decide

/-- C2 amended: keyword-argument insertion order DOES affect the key.
Keyword lists with distinct canonical (insertion-ordered) forms produce
distinct serialized canonical structures, hence distinct keys up to
SHA-256 collision; the spec's example pair differs at the actual digest
level (see the counterexample theorem). -/
theorem C2_keyword_order_sensitivity :
    ∀ (args : List PyVal) (kwargs kwargs' : List (String × PyVal)),
      safeList args = true → wfList args = true →
      safeKVs kwargs = true → wfKVs kwargs = true →
      safeKVs kwargs' = true → wfKVs kwargs' = true →
      canonKVs kwargs ≠ canonKVs kwargs' →
      serialized_input args kwargs ≠ serialized_input args kwargs' := by
  intro args kwargs kwargs' hsa hwa hsk hwk hsk' hwk' hne h
  exact hne (serialized_input_inj args args kwargs kwargs'
    hsa hwa hsa hwa hsk hwk hsk' hwk' h).2

/-! ## Witnesses: each hypothesis-bearing claim theorem applied at a
concrete input. -/

theorem C1_miss_then_hit_witness :
    toTimedelta "3D" = some 259200 ∧
    (let base := (cache_path "/h" "f" [] []).getD ""
     let path := base ++ "." ++ (Config.mk "3D" "pkl").ext
     let r1 := wrapper (V := Int) (ε := String) (fun _ => false) "/h" ⟨"3D", "pkl"⟩
       (fun _ _ => .ok 42) "f" [] [] 0 []
     let r2 := wrapper (V := Int) (ε := String) (fun _ => false) "/h" ⟨"3D", "pkl"⟩
       (fun _ _ => .ok 42) "f" [] [] 100 r1.fs
     r1.calls = 1 ∧ r1.out = .ok 42 ∧ r1.fs = fsWrite path ⟨42, 0, 0⟩ [] ∧
       fsGet path r1.fs = some ⟨42, 0, 0⟩ ∧
       r2.calls = 0 ∧ r2.out = .ok 42 ∧ r2.fs = r1.fs) :=
  ⟨rfl, C1_miss_then_hit (fun _ => false) "/h" ⟨"3D", "pkl"⟩ (fun _ _ => .ok 42) "f" [] []
    [] 0 100 rfl (by decide) rfl (by decide) rfl rfl (by decide)⟩

theorem C3_stale_eviction_witness :
    toTimedelta "3D" = some 259200 ∧
    (let base := (cache_path "/h" "f" [] []).getD ""
     let path := base ++ "." ++ (Config.mk "3D" "pkl").ext
     let fs0 : FS Int := [(base ++ "." ++ "pkl", ⟨7, 0, 0⟩)]
     let r := wrapper (V := Int) (ε := String) (fun _ => false) "/h" ⟨"3D", "pkl"⟩
       (fun _ _ => .ok 42) "f" [] [] 1000000 fs0
     r.calls = 1 ∧ r.out = .ok 42 ∧
       r.fs = (path, ⟨42, 1000000, 1000000⟩) :: fsErase path fs0 ∧
       fsGet path r.fs = some ⟨42, 1000000, 1000000⟩) :=
  ⟨rfl, C3_stale_eviction (fun _ => false) "/h" ⟨"3D", "pkl"⟩ (fun _ _ => .ok 42) "f" [] []
    ⟨7, 0, 0⟩ [((cache_path "/h" "f" [] []).getD "" ++ "." ++ "pkl", ⟨7, 0, 0⟩)]
    1000000 rfl (by decide) rfl (by decide) rfl rfl (by decide)⟩

theorem C4_error_propagation_witness :
    (let base := (cache_path "/h" "f" [] []).getD ""
     let path := base ++ "." ++ (Config.mk "3D" "pkl").ext
     let r := wrapper (V := Int) (ε := String) (fun _ => false) "/h" ⟨"3D", "pkl"⟩
       (fun _ _ => .error "boom") "f" [] [] 0 []
     (fsGet path ([] : FS Int) = Option.none →
       r.out = .error (.user "boom") ∧ r.fs = [] ∧ r.calls = 1 ∧
         fsGet path r.fs = Option.none) ∧
     (∀ entry T, fsGet path ([] : FS Int) = some entry → toTimedelta "3D" = some T →
       (0 : Int) - entry.mtime ≥ T →
       r.out = .error (.user "boom") ∧ r.fs = fsErase path [] ∧ r.calls = 1 ∧
         fsGet path r.fs = Option.none)) :=
  C4_error_propagation (fun _ => false) "/h" ⟨"3D", "pkl"⟩ (fun _ _ => .error "boom")
    "f" [] [] [] 0 rfl rfl

theorem C6_wrap_time_format_validation_witness :
    (disk_cache (ε := String) "3D" "txt" = .error .badExt) ∧
    (wrapper (V := Int) (ε := String) (fun _ => false) "/h" ⟨"3D", "pkl"⟩
      (fun _ _ => .ok 42) "f" [] [] 0 []).out ≠ .error .badExt :=
  ⟨((C6_wrap_time_format_validation (V := Int) (ε := String) (fun _ => false)).1
      "3D" "txt").1.mpr (by decide),
    (C6_wrap_time_format_validation (fun _ => false)).2 "/h" ⟨"3D", "pkl"⟩
      (fun _ _ => .ok 42) "f" [] [] 0 [] (by decide)⟩

theorem C7_derive_key_total_and_drop_insensitive_witness :
    safe_json .obj = false ∧
    (hash_input [] []).isSome = true ∧
    hash_input ([] ++ .obj :: []) [] = hash_input ([] ++ []) [] ∧
    hash_input [] ([] ++ ("k", .obj) :: []) = hash_input [] ([] ++ []) :=
  ⟨by decide, C7_derive_key_total_and_drop_insensitive.1 [] [],
    C7_derive_key_total_and_drop_insensitive.2.1 [] [] .obj [] (by decide),
    C7_derive_key_total_and_drop_insensitive.2.2 [] [] [] "k" .obj (by decide)⟩

theorem C9_lazy_max_age_parse_witness :
    (disk_cache (ε := String) "nonsense" "pkl" = .ok ⟨"nonsense", "pkl"⟩) ∧
    toTimedelta "nonsense" = Option.none ∧
    (let base := (cache_path "/h" "f" [] []).getD ""
     wrapper (V := Int) (ε := String) (fun _ => false) "/h" ⟨"nonsense", "pkl"⟩
       (fun _ _ => .ok 42) "f" [] [] 0 [] =
       ⟨.ok 42, fsWrite (base ++ "." ++ (Config.mk "nonsense" "pkl").ext) ⟨42, 0, 0⟩ [], 1⟩) ∧
    (let base := (cache_path "/h" "f" [] []).getD ""
     wrapper (V := Int) (ε := String) (fun _ => false) "/h" ⟨"nonsense", "pkl"⟩
       (fun _ _ => .ok 42) "f" [] [] 0 [(base ++ "." ++ "pkl", ⟨7, 0, 0⟩)] =
       ⟨.error .parseErr, [(base ++ "." ++ "pkl", ⟨7, 0, 0⟩)], 0⟩) :=
  ⟨(C9_lazy_max_age_parse (V := Int) (ε := String) (fun _ => false)).1 "nonsense" "pkl"
      (by decide),
    rfl,
    (C9_lazy_max_age_parse (fun _ => false)).2.1 "/h" ⟨"nonsense", "pkl"⟩
      (fun _ _ => .ok 42) "f" [] [] 0 [] ((cache_path "/h" "f" [] []).getD "") 42
      rfl (by decide) (by decide) rfl rfl,
    (C9_lazy_max_age_parse (fun _ => false)).2.2 "/h" ⟨"nonsense", "pkl"⟩
      (fun _ _ => .ok 42) "f" [] [] 0
      [((cache_path "/h" "f" [] []).getD "" ++ "." ++ "pkl", ⟨7, 0, 0⟩)]
      ((cache_path "/h" "f" [] []).getD "") ⟨7, 0, 0⟩ rfl rfl rfl⟩

theorem C8_positional_order_sensitivity_witness :
    canonList [.int 1] ≠ canonList [.int 2] ∧
    serialized_input [.int 1] [] ≠ serialized_input [.int 2] [] := by
  have hne : canonList [.int 1] ≠ canonList [.int 2] := by
    have hs : (⟨intChars 1⟩ : String) ≠ (⟨intChars 2⟩ : String) := by decide
    intro h
    rw [show canonList [.int 1] = [.float ⟨intChars 1⟩] from rfl,
      show canonList [.int 2] = [.float ⟨intChars 2⟩] from rfl] at h
    injection h with h1 _
    injection h1 with h2
    exact hs h2
  exact ⟨hne, C8_positional_order_sensitivity.1 [.int 1] [.int 2] []
    (by decide) (by decide) (by decide) (by decide) (by decide) (by decide) hne⟩

theorem C2_keyword_order_sensitivity_witness :
    canonKVs [("a", .int 1), ("b", .int 2)] ≠ canonKVs [("b", .int 2), ("a", .int 1)] ∧
    serialized_input [] [("a", .int 1), ("b", .int 2)]
      ≠ serialized_input [] [("b", .int 2), ("a", .int 1)] := by
  have hne : canonKVs [("a", .int 1), ("b", .int 2)]
      ≠ canonKVs [("b", .int 2), ("a", .int 1)] := by
    intro h
    rw [show canonKVs [("a", .int 1), ("b", .int 2)]
        = [("a", .float ⟨intChars 1⟩), ("b", .float ⟨intChars 2⟩)] from rfl,
      show canonKVs [("b", .int 2), ("a", .int 1)]
        = [("b", .float ⟨intChars 2⟩), ("a", .float ⟨intChars 1⟩)] from rfl] at h
    injection h with h1 _
    injection h1 with hk _
    exact absurd hk (by decide)
  exact ⟨hne, C2_keyword_order_sensitivity [] [("a", .int 1), ("b", .int 2)]
    [("b", .int 2), ("a", .int 1)] (by decide) (by decide) (by decide) (by decide)
    (by decide) (by decide) hne⟩
